import Mathlib

/-!
Verification development for `libexec/create_package.py` of the
mecab-ipadic-neologd packaging repository.

The script is shallowly embedded.  Filesystem paths are modelled as lists
of path components (`os.path.join` appends components).  The fragment of
filesystem state the script reads and writes is an explicit `FS` record
(regular files labelled by inode, directories, a fresh-inode counter), and
each OS call the script performs is a pure state-passing function that also
appends an `Event` to a trace, so that claims about side effects ("no
subprocess invoked", "no temporary directory created", "only the staging
subtree is removed") become statements about the returned state and trace.
The nondeterministic ingredients of a run — the name `tempfile.mkdtemp`
returns, the listing `os.listdir(input_dir)` yields, the exit code of the
spawned subprocess, and whether the external tool actually produced its
artifact — are passed in as explicit parameters.
-/

namespace MecabPkg

/-- A filesystem path, modelled as its list of components. -/
abbrev Path := List String

/-- `pathLE a b` holds when `a` is a leading component segment of `b`:
`b` is the path `a` itself or lies inside the directory `a`. -/
def pathLE : Path → Path → Bool
  | [], _ => true
  | _ :: _, [] => false
  | a :: as, b :: bs => a == b && pathLE as bs

theorem pathLE_iff (a b : Path) : pathLE a b = true ↔ ∃ t, b = a ++ t := by
  induction a generalizing b with
  | nil => simp [pathLE]
  | cons x as ih =>
    cases b with
    | nil =>
      simp only [pathLE, List.cons_append]
      constructor
      · intro h; cases h
      · rintro ⟨t, h⟩; cases h
    | cons y bs =>
      simp only [pathLE, Bool.and_eq_true, beq_iff_eq, ih, List.cons_append,
        List.cons.injEq]
      constructor
      · rintro ⟨rfl, t, rfl⟩; exact ⟨t, rfl, rfl⟩
      · rintro ⟨t, rfl, rfl⟩; exact ⟨rfl, t, rfl⟩

theorem pathLE_append (a t : Path) : pathLE a (a ++ t) = true :=
  (pathLE_iff _ _).mpr ⟨t, rfl⟩

theorem pathLE_refl (a : Path) : pathLE a a = true := by
  simpa using pathLE_append a []

theorem pathLE_trans {a b c : Path} (h1 : pathLE a b = true)
    (h2 : pathLE b c = true) : pathLE a c = true := by
  rcases (pathLE_iff _ _).mp h1 with ⟨t, rfl⟩
  rcases (pathLE_iff _ _).mp h2 with ⟨u, rfl⟩
  exact (pathLE_iff _ _).mpr ⟨t ++ u, by simp⟩

theorem pathLE_append_same (a b c : Path) :
    pathLE (a ++ b) (a ++ c) = pathLE b c := by
  induction a with
  | nil => rfl
  | cons x as ih => simp [pathLE, List.cons_append, ih]

theorem pathLE_eq_false_of_length {a b : Path} (h : b.length < a.length) :
    pathLE a b = false := by
  cases he : pathLE a b with
  | false => rfl
  | true =>
    rcases (pathLE_iff _ _).mp he with ⟨t, rfl⟩
    simp only [List.length_append] at h
    omega

theorem snoc_inj {a b : Path} {x y : String} :
    a ++ [x] = b ++ [y] ↔ a = b ∧ x = y := by
  constructor
  · intro h
    have h2 := congrArg List.reverse h
    simp only [List.reverse_append, List.reverse_cons, List.reverse_nil,
      List.nil_append, List.singleton_append, List.cons.injEq] at h2
    exact ⟨List.reverse_inj.mp h2.2, h2.1⟩
  · rintro ⟨rfl, rfl⟩; rfl

theorem pathLE_snoc_snoc {a : Path} {x y : String} :
    pathLE (a ++ [x]) (a ++ [y]) = true ↔ x = y := by
  rw [pathLE_append_same]
  constructor
  · intro h
    rcases (pathLE_iff _ _).mp h with ⟨t, ht⟩
    have hl := congrArg List.length ht
    simp only [List.length_append, List.length_cons, List.length_nil] at hl
    have ht' : t = [] := List.length_eq_zero.mp (by omega)
    subst ht'
    simpa using ht.symm
  · rintro rfl; exact pathLE_refl _

/-- Errors a run of the script can raise: the script's own
`MeCabPackageException`, and errors raised by the Python runtime or OS
(`os.link` failures, tuple-unpacking `ValueError`, …). -/
inductive PyError where
  | mecab (msg : String)
  | osError (msg : String)
deriving Repr, DecidableEq

/-- The side effects a run performs, in order. -/
inductive Event where
  | mkdtemp (d : Path)
  | mkdir (p : Path)
  | mkdirP (p : Path)
  | link (src dst : Path)
  | writeFile (p : Path) (content : String)
  | run (cmd : List String) (cwd : Option Path)
  | rmtree (p : Path)
deriving Repr, DecidableEq

/-- The fragment of filesystem state the script manipulates: regular files
labelled with an inode (hardlinks share an inode), the directory set, and a
counter supplying fresh inodes for newly produced files. -/
structure FS where
  files : List (Path × Nat)
  dirs : List Path
  next : Nat
deriving Repr, DecidableEq

/-- `os.path.isfile`. -/
def FS.isFile (fs : FS) (p : Path) : Bool :=
  fs.files.any (fun qi => qi.1 == p)

/-- The inode a path currently resolves to, if it is a regular file. -/
def FS.inode (fs : FS) (p : Path) : Option Nat :=
  (fs.files.find? (fun qi => qi.1 == p)).map (fun qi => qi.2)

theorem isFile_iff {fs : FS} {p : Path} :
    fs.isFile p = true ↔ ∃ i, (p, i) ∈ fs.files := by
  simp only [FS.isFile, List.any_eq_true, beq_iff_eq]
  constructor
  · rintro ⟨⟨q, i⟩, hm, rfl⟩; exact ⟨i, hm⟩
  · rintro ⟨i, hm⟩; exact ⟨(p, i), hm, rfl⟩

theorem exists_inode_of_isFile {fs : FS} {p : Path} (h : fs.isFile p = true) :
    ∃ i, fs.inode p = some i := by
  have h2 : (fs.files.find? (fun qi => qi.1 == p)).isSome := by
    rw [List.find?_isSome]
    simpa [FS.isFile, List.any_eq_true] using h
  rcases Option.isSome_iff_exists.mp h2 with ⟨qi, hq⟩
  exact ⟨qi.2, by simp [FS.inode, hq]⟩

theorem mem_of_inode {fs : FS} {p : Path} {i : Nat} (h : fs.inode p = some i) :
    (p, i) ∈ fs.files := by
  unfold FS.inode at h
  cases hf : fs.files.find? (fun qi => qi.1 == p) with
  | none => rw [hf] at h; cases h
  | some qi =>
    rw [hf] at h
    have h1 := List.find?_some hf
    rw [beq_iff_eq] at h1
    have h2 := List.mem_of_find?_eq_some hf
    obtain ⟨q1, q2⟩ := qi
    simp only [Option.map_some'] at h
    cases h1
    cases h
    exact h2

theorem isFile_eq_false_iff {fs : FS} {p : Path} :
    fs.isFile p = false ↔ ∀ i, (p, i) ∉ fs.files := by
  rw [← Bool.not_eq_true, isFile_iff]
  push_neg
  rfl

/-- One archive/package produced by an external tool during the run:
the artifact path, and the staged regular files (paths relative to the
root the tool was pointed at, with their inodes) and staged directories
the tool consumed. -/
structure Package where
  out : Path
  files : List (Path × Nat)
  dirs : List Path
deriving Repr, DecidableEq

/-- The whole state a run threads: the filesystem, the event trace, and
the packages produced so far by external tools. -/
structure World where
  fs : FS
  events : List Event
  packages : List Package
deriving Repr, DecidableEq

def logW (e : Event) (w : World) : World :=
  { w with events := w.events ++ [e] }

/-- `tempfile.mkdtemp()`; the fresh directory name is a parameter. -/
def mkdtempW (d : Path) (w : World) : World :=
  logW (.mkdtemp d) { w with fs := { w.fs with dirs := d :: w.fs.dirs } }

/-- `os.mkdir`. -/
def mkdirW (p : Path) (w : World) : World :=
  logW (.mkdir p) { w with fs := { w.fs with dirs := p :: w.fs.dirs } }

/-- `__mkdir_p(root ++ rel)`, i.e. `pathlib.Path(...).mkdir(parents=True,
exist_ok=True)`: creates the whole chain of directories from `root` down to
`root ++ rel` (the ancestors of `root` itself already exist: `root` is the
staging directory just created inside the fresh temp directory). -/
def mkdirPW (root rel : Path) (w : World) : World :=
  logW (.mkdirP (root ++ rel))
    { w with fs := { w.fs with
        dirs := ((List.range rel.length).map (fun i => root ++ rel.take (i + 1)))
          ++ w.fs.dirs } }

/-- `os.link src dst`: hardlink; fails if `src` is not an existing file or
`dst` already exists, otherwise `dst` now resolves to `src`'s inode. -/
def linkW (src dst : Path) (w : World) : Except PyError Unit × World :=
  match w.fs.inode src with
  | none => (.error (.osError "FileNotFoundError"), w)
  | some i =>
    if w.fs.isFile dst then (.error (.osError "FileExistsError"), w)
    else
      (.ok (), logW (.link src dst)
        { w with fs := { w.fs with files := (dst, i) :: w.fs.files } })

/-- `open(p, 'w').write(content)`: creates a file with a fresh inode. -/
def writeFileW (p : Path) (content : String) (w : World) : World :=
  logW (.writeFile p content)
    { w with fs := { w.fs with
        files := (p, w.fs.next) :: w.fs.files,
        next := w.fs.next + 1 } }

/-- `shutil.rmtree p`: removes `p` and everything below it. -/
def rmtreeW (p : Path) (w : World) : World :=
  logW (.rmtree p)
    { w with fs := { w.fs with
        files := w.fs.files.filter (fun qi => !pathLE p qi.1),
        dirs := w.fs.dirs.filter (fun d => !pathLE p d) } }

/-- Render a path the way the script's f-strings interpolate it. -/
def pathToString (p : Path) : String :=
  "/" ++ String.intercalate "/" p

/-- Character-list splitting on `/`. -/
def splitSlash : List Char → List (List Char)
  | [] => [[]]
  | c :: rest =>
    if c = '/' then [] :: splitSlash rest
    else
      match splitSlash rest with
      | [] => [[c]]
      | h :: t => (c :: h) :: t

/-- Split a slash-joined relative directory string into path components
(the script passes such strings to `os.path.join`). -/
def pathOfRel (s : String) : Path :=
  (splitSlash s.data).map (fun l => String.mk l)

def MECAB_IPADIC_NEOLOGD_NAME : String := "mecab-ipadic-neologd"

def MECAB_IPADIC_NEOLOGD_SUMMARY : String :=
  "Neologism dictionary based on the language resources on the Web for mecab-ipadic"

def MECAB_IPADIC_NEOLOGD_LICENSE : String := "Apache-2.0"

def MECAB_IPADIC_NEOLOGD_VENDOR : String :=
  "Toshinori Sato (@overlast) <overlasting@gmail.com>"

def MECAB_IPADIC_NEOLOGD_MAINTAINER : String :=
  "Linas Valiukas <linas@mediacloud.org>"

def MECAB_IPADIC_NEOLOGD_URL : String :=
  "https://github.com/mediacloud/mecab-ipadic-neologd-prebuilt"

def MECAB_IPADIC_NEOLOGD_DEPENDS_MECAB_VERSION : String := "0.996"

def MECAB_IPADIC_NEOLOGD_CHANGELOG_FILE : String := "ChangeLog"

/-- `os.path.basename`. -/
def basename (p : Path) : String := p.getLastD ""

/-- The misc documentation files, resolved against `PATH_TO_ROOT` (the
repository root computed from `__file__`, here a parameter `root`). -/
def MECAB_IPADIC_NEOLOGD_MISC_DOCS (root : Path) : List Path :=
  [root ++ ["README.md"],
   root ++ ["README.ja.md"],
   root ++ [MECAB_IPADIC_NEOLOGD_CHANGELOG_FILE],
   root ++ ["COPYING"]]

def missingDictMsg (input_dir : Path) : String :=
  "Input directory \"" ++ pathToString input_dir
    ++ "\" does not contain build MeCab dictionary."

def missingDocMsg (doc : Path) : String :=
  "Misc. documentation file \"" ++ pathToString doc ++ "\" does not exist."

def unknownTypeMsg (package_type : String) : String :=
  "Unknown package type \"" ++ package_type ++ "\"."

def processFailMsg (rc : Int) : String :=
  "Process returned non-zero exit code " ++ toString rc

/-- Message of the postcondition-failure exception that `create_package`
constructs on its last line when the produced package file does not exist;
the source constructs this exception but never raises it. -/
def createdMissingMsg (package_path : Path) : String :=
  "Created package \"" ++ pathToString package_path ++ "\" does not exist."

/-- `__run_command(command, cwd)`: streams the subprocess output to the
log (not modelled), then raises iff the returncode `rc` — supplied as a
parameter, since it is the subprocess's — satisfies `rc > 0` (the source
tests `if rc > 0:`, not `rc != 0`). -/
def run_command (command : List String) (cwd : Option Path) (rc : Int)
    (w : World) : Except PyError Unit × World :=
  let w := logW (.run command cwd) w
  if rc > 0 then (.error (.mecab (processFailMsg rc)), w) else (.ok (), w)

/-- The regular files currently under `root`, with paths made relative to
`relTo` (what an archiving/packaging tool pointed at `root` consumes). -/
def filesUnder (fs : FS) (root relTo : Path) : List (Path × Nat) :=
  fs.files.filterMap (fun qi =>
    if pathLE root qi.1 then some (qi.1.drop relTo.length, qi.2) else none)

/-- The directories currently under `root`, relative to `relTo`. -/
def dirsUnder (fs : FS) (root relTo : Path) : List Path :=
  (fs.dirs.filter (fun d => pathLE root d)).map (fun d => d.drop relTo.length)

/-- Invocation of an external packaging tool (`tar` / `fpm`) through
`__run_command`.  The tool's own behaviour is modelled here: when the
subprocess succeeds and actually produced its artifact (`created`, a run
parameter), the output file appears with a fresh inode and the package it
bundled — the files and directories staged under `consumedRoot`, relative
to `relTo` — is recorded. -/
def runToolW (command : List String) (cwd : Option Path) (rc : Int)
    (consumedRoot relTo out : Path) (created : Bool) (w : World) :
    Except PyError Unit × World :=
  match run_command command cwd rc w with
  | (.error e, w) => (.error e, w)
  | (.ok _, w) =>
    if created then
      (.ok (), { w with
        fs := { w.fs with
          files := (out, w.fs.next) :: w.fs.files,
          next := w.fs.next + 1 },
        packages := w.packages ++
          [{ out := out,
             files := filesUnder w.fs consumedRoot relTo,
             dirs := dirsUnder w.fs consumedRoot relTo }] })
    else (.ok (), w)

/-- The `for filename in os.listdir(input_dir): if os.path.isfile(...):
os.link(...)` loop shared by all three builders; `entries` is the listing
`os.listdir(input_dir)` returned. -/
def linkInputFiles (input_dir dstDir : Path) :
    List String → World → Except PyError Unit × World
  | [], w => (.ok (), w)
  | filename :: rest, w =>
    let full_filename := input_dir ++ [filename]
    if w.fs.isFile full_filename then
      match linkW full_filename (dstDir ++ [filename]) w with
      | (.ok _, w) => linkInputFiles input_dir dstDir rest w
      | (.error e, w) => (.error e, w)
    else linkInputFiles input_dir dstDir rest w

/-- The `for doc_file_path in MECAB_IPADIC_NEOLOGD_MISC_DOCS:
os.link(doc_file_path, os.path.join(dir, os.path.basename(...)))` loop
shared by all three builders. -/
def linkDocs (dstDir : Path) :
    List Path → World → Except PyError Unit × World
  | [], w => (.ok (), w)
  | doc_file_path :: rest, w =>
    match linkW doc_file_path (dstDir ++ [basename doc_file_path]) w with
    | (.ok _, w) => linkDocs dstDir rest w
    | (.error e, w) => (.error e, w)

def tgzDirName (version revision : String) : String :=
  MECAB_IPADIC_NEOLOGD_NAME ++ "-" ++ version ++ "-" ++ revision

/-- The `tar` command line `create_tgz_package` spawns. -/
def tarCommand (tempDir : Path) (version revision : String) : List String :=
  ["tar", "-czvf",
   pathToString (tempDir ++ [tgzDirName version revision ++ ".tgz"]),
   tgzDirName version revision]

/-- `create_tgz_package(input_dir, version, revision)`.  Run parameters:
`root` (repository root), `tempDir` (what `mkdtemp` returned), `entries`
(what `os.listdir(input_dir)` returned), `rc` (the `tar` exit code) and
`created` (whether `tar` produced its file). -/
def create_tgz_package (root tempDir : Path) (entries : List String)
    (rc : Int) (created : Bool) (input_dir : Path)
    (version revision : String) (w : World) : Except PyError Path × World :=
  let w := mkdtempW tempDir w
  let mecab_dirname := tgzDirName version revision
  let temp_mecab_dir_path := tempDir ++ [mecab_dirname]
  let w := mkdirW temp_mecab_dir_path w
  match linkInputFiles input_dir temp_mecab_dir_path entries w with
  | (.error e, w) => (.error e, w)
  | (.ok _, w) =>
    match linkDocs temp_mecab_dir_path (MECAB_IPADIC_NEOLOGD_MISC_DOCS root) w with
    | (.error e, w) => (.error e, w)
    | (.ok _, w) =>
      let tarball_filename := mecab_dirname ++ ".tgz"
      let temp_mecab_tarball_path := tempDir ++ [tarball_filename]
      match runToolW (tarCommand tempDir version revision)
          (some tempDir) rc temp_mecab_dir_path tempDir
          temp_mecab_tarball_path created w with
      | (.error e, w) => (.error e, w)
      | (.ok _, w) =>
        let w := rmtreeW temp_mecab_dir_path w
        (.ok temp_mecab_tarball_path, w)

def fpm_common_flags (version revision : String) : List String :=
  ["--verbose",
   "--input-type", "dir",
   "--name", MECAB_IPADIC_NEOLOGD_NAME,
   "--version", version,
   "--iteration", revision,
   "--description", MECAB_IPADIC_NEOLOGD_SUMMARY,
   "--license", MECAB_IPADIC_NEOLOGD_LICENSE,
   "--vendor", MECAB_IPADIC_NEOLOGD_VENDOR,
   "--maintainer", MECAB_IPADIC_NEOLOGD_MAINTAINER,
   "--url", MECAB_IPADIC_NEOLOGD_URL,
   "--architecture", "all",
   "--prefix", "/"]

def deb_base_lib_dir : String := "var/lib/mecab/dic/ipadic-neologd"

def deb_base_doc_dir : String := "usr/share/doc/mecab-ipadic-neologd"

def debName (version revision : String) : String :=
  MECAB_IPADIC_NEOLOGD_NAME ++ "_" ++ version ++ "-" ++ revision ++ "_all.deb"

/-- The `fpm` command line `create_deb_package` spawns. -/
def debFpmCommand (tempDir : Path) (version revision : String) : List String :=
  ["fpm"] ++ fpm_common_flags version revision ++
    ["--output-type", "deb",
     "--package", pathToString (tempDir ++ [debName version revision]),
     "--chdir", pathToString (tempDir ++ ["deb"]),
     "--depends",
       "mecab (>= " ++ MECAB_IPADIC_NEOLOGD_DEPENDS_MECAB_VERSION ++ ")",
     "--category", "misc",
     "--deb-priority", "extra",
     "--deb-no-default-config-files",
     "--after-install", pathToString (tempDir ++ ["after-install"]),
     "--after-remove", pathToString (tempDir ++ ["after-remove"])]

def afterInstallContent : String :=
  "update-alternatives --install /var/lib/mecab/dic/debian mecab-dictionary /"
    ++ deb_base_lib_dir ++ " 100"

def afterRemoveContent : String :=
  "update-alternatives --remove mecab-dictionary /" ++ deb_base_lib_dir

/-- `create_deb_package(input_dir, version, revision)`; run parameters as
for `create_tgz_package` (with `rc`/`created` describing the `fpm` run). -/
def create_deb_package (root tempDir : Path) (entries : List String)
    (rc : Int) (created : Bool) (input_dir : Path)
    (version revision : String) (w : World) : Except PyError Path × World :=
  let w := mkdtempW tempDir w
  let deb_source_dir := tempDir ++ ["deb"]
  let w := mkdirW deb_source_dir w
  let lib_dir := deb_source_dir ++ pathOfRel deb_base_lib_dir
  let w := mkdirPW deb_source_dir (pathOfRel deb_base_lib_dir) w
  let doc_dir := deb_source_dir ++ pathOfRel deb_base_doc_dir
  let w := mkdirPW deb_source_dir (pathOfRel deb_base_doc_dir) w
  match linkInputFiles input_dir lib_dir entries w with
  | (.error e, w) => (.error e, w)
  | (.ok _, w) =>
    match linkDocs doc_dir (MECAB_IPADIC_NEOLOGD_MISC_DOCS root) w with
    | (.error e, w) => (.error e, w)
    | (.ok _, w) =>
      let deb_path := tempDir ++ [debName version revision]
      let after_install_path := tempDir ++ ["after-install"]
      let w := writeFileW after_install_path afterInstallContent w
      let after_remove_path := tempDir ++ ["after-remove"]
      let w := writeFileW after_remove_path afterRemoveContent w
      let fpm_command := debFpmCommand tempDir version revision
      match runToolW fpm_command none rc deb_source_dir deb_source_dir
          deb_path created w with
      | (.error e, w) => (.error e, w)
      | (.ok _, w) =>
        let w := rmtreeW deb_source_dir w
        (.ok deb_path, w)

def rpm_base_lib_dir : String := "usr/lib64/mecab/dic/ipadic-neologd"

def rpmDocDirRel (version : String) : String :=
  "usr/share/doc/" ++ MECAB_IPADIC_NEOLOGD_NAME ++ "-" ++ version

def rpmName (version revision : String) : String :=
  MECAB_IPADIC_NEOLOGD_NAME ++ "_" ++ version ++ "-" ++ revision ++ "_all.rpm"

/-- The `fpm` command line `create_rpm_package` spawns. -/
def rpmFpmCommand (tempDir : Path) (version revision : String) : List String :=
  ["fpm"] ++ fpm_common_flags version revision ++
    ["--output-type", "rpm",
     "--package", pathToString (tempDir ++ [rpmName version revision]),
     "--chdir", pathToString (tempDir ++ ["rpm"]),
     "--depends",
       "mecab >= " ++ MECAB_IPADIC_NEOLOGD_DEPENDS_MECAB_VERSION,
     "--category", "Applications/Text",
     "--rpm-os", "linux"]

/-- `create_rpm_package(input_dir, version, revision)`; run parameters as
for `create_deb_package`. -/
def create_rpm_package (root tempDir : Path) (entries : List String)
    (rc : Int) (created : Bool) (input_dir : Path)
    (version revision : String) (w : World) : Except PyError Path × World :=
  let w := mkdtempW tempDir w
  let rpm_source_dir := tempDir ++ ["rpm"]
  let w := mkdirW rpm_source_dir w
  let lib_dir := rpm_source_dir ++ pathOfRel rpm_base_lib_dir
  let w := mkdirPW rpm_source_dir (pathOfRel rpm_base_lib_dir) w
  let doc_dir := rpm_source_dir ++ pathOfRel (rpmDocDirRel version)
  let w := mkdirPW rpm_source_dir (pathOfRel (rpmDocDirRel version)) w
  match linkInputFiles input_dir lib_dir entries w with
  | (.error e, w) => (.error e, w)
  | (.ok _, w) =>
    match linkDocs doc_dir (MECAB_IPADIC_NEOLOGD_MISC_DOCS root) w with
    | (.error e, w) => (.error e, w)
    | (.ok _, w) =>
      let rpm_path := tempDir ++ [rpmName version revision]
      let fpm_command := rpmFpmCommand tempDir version revision
      match runToolW fpm_command none rc rpm_source_dir rpm_source_dir
          rpm_path created w with
      | (.error e, w) => (.error e, w)
      | (.ok _, w) =>
        let w := rmtreeW rpm_source_dir w
        (.ok rpm_path, w)

/-- The `for misc_doc_file in MECAB_IPADIC_NEOLOGD_MISC_DOCS: if not
os.path.isfile(...): raise` validation loop of `create_package`. -/
def checkMiscDocs (fs : FS) : List Path → Except PyError Unit
  | [] => .ok ()
  | d :: rest =>
    if fs.isFile d then checkMiscDocs fs rest
    else .error (.mecab (missingDocMsg d))

/-- `create_package(package_type, input_dir, version, revision)`:
validation, dispatch on the package type, and the final (toothless)
postcondition check — `MeCabPackageException(f'Created package ... does
not exist.')` on the missing-artifact path is constructed but not raised,
so the path is returned either way. -/
def create_package (root : Path) (package_type : String) (input_dir : Path)
    (version revision : String) (tempDir : Path) (entries : List String)
    (rc : Int) (created : Bool) (w : World) : Except PyError Path × World :=
  if !w.fs.isFile (input_dir ++ ["sys.dic"]) then
    (.error (.mecab (missingDictMsg input_dir)), w)
  else
    match checkMiscDocs w.fs (MECAB_IPADIC_NEOLOGD_MISC_DOCS root) with
    | .error e => (.error e, w)
    | .ok _ =>
      match
        (if package_type == "tgz" then
          create_tgz_package root tempDir entries rc created input_dir
            version revision w
        else if package_type == "deb" then
          create_deb_package root tempDir entries rc created input_dir
            version revision w
        else if package_type == "rpm" then
          create_rpm_package root tempDir entries rc created input_dir
            version revision w
        else (.error (.mecab (unknownTypeMsg package_type)), w)) with
      | (.error e, w) => (.error e, w)
      | (.ok package_path, w) =>
        -- `if not os.path.isfile(package_path):` constructs
        -- `MeCabPackageException(createdMissingMsg package_path)` and
        -- discards it; no raise, so both branches return the path.
        (.ok package_path, w)

/-- A separator character of the version-tag regular expression
`[\-_]`. -/
def isSepChar (c : Char) : Bool := c == '-' || c == '_'

/-- `re.split(r'[\-_]', s)` on the character list of `s`: the fragments
between occurrences of separator characters, in order (adjacent, leading
and trailing separators yield empty fragments). -/
def reSplitSep : List Char → List (List Char)
  | [] => [[]]
  | c :: rest =>
    if isSepChar c then [] :: reSplitSep rest
    else
      match reSplitSep rest with
      | [] => [[c]]
      | h :: t => (c :: h) :: t

/-- `__version_revision_from_version_tag(version_tag)`: the two-element
tuple unpacking of the `re.split` result succeeds exactly when the split
has exactly two parts; any other shape raises an unhandled `ValueError`,
modelled as `none`. -/
def version_revision_from_version_tag (version_tag : String) :
    Option (String × String) :=
  match (reSplitSep version_tag.data).map (fun l => String.mk l) with
  | [version, revision] => some (version, revision)
  | _ => none

/-- Number of separator characters in a tag. -/
def sepCount (s : String) : Nat := s.data.countP isSepChar

theorem reSplitSep_ne_nil (l : List Char) : reSplitSep l ≠ [] := by
  cases l with
  | nil => simp [reSplitSep]
  | cons c rest =>
    rw [reSplitSep]
    split
    · simp
    · split <;> simp

theorem reSplitSep_length (l : List Char) :
    (reSplitSep l).length = l.countP isSepChar + 1 := by
  induction l with
  | nil => simp [reSplitSep]
  | cons c rest ih =>
    rw [reSplitSep, List.countP_cons]
    cases hc : isSepChar c with
    | true =>
      rw [if_pos rfl, if_pos rfl]
      simp only [List.length_cons, ih]
    | false =>
      rw [if_neg Bool.false_ne_true, if_neg Bool.false_ne_true]
      cases h : reSplitSep rest with
      | nil => exact absurd h (reSplitSep_ne_nil rest)
      | cons a t =>
        rw [h] at ih
        simp only [List.length_cons] at ih ⊢
        omega

/-- Shared concrete world for witnesses: an input directory `/in` holding
the built dictionary, the repository root `/repo` holding the four misc
docs. -/
def fs0 : FS :=
  { files := [(["in", "sys.dic"], 0), (["in", "matrix.bin"], 1),
      (["repo", "README.md"], 2), (["repo", "README.ja.md"], 3),
      (["repo", "ChangeLog"], 4), (["repo", "COPYING"], 5)],
    dirs := [["in"], ["repo"]],
    next := 6 }

def w0 : World := { fs := fs0, events := [], packages := [] }

/-- Shared concrete world for witnesses: as `w0` but with the misc doc
`README.ja.md` missing from the repository root. -/
def fs1 : FS :=
  { files := [(["in", "sys.dic"], 0), (["in", "matrix.bin"], 1),
      (["repo", "README.md"], 2), (["repo", "ChangeLog"], 4),
      (["repo", "COPYING"], 5)],
    dirs := [["in"], ["repo"]],
    next := 6 }

def w1 : World := { fs := fs1, events := [], packages := [] }

/-- C2: version-tag parsing splits on `-` or `_` into exactly two
components; `"20170814-1"` and `"20170814_1"` both parse to
`("20170814", "1")`; a tag with zero separators or more than one
separator fails the two-element tuple unpacking (modelled as `none`),
and a tag with exactly one separator yields a pair. -/
theorem c2_thm :
    version_revision_from_version_tag "20170814-1" = some ("20170814", "1")
    ∧ version_revision_from_version_tag "20170814_1" = some ("20170814", "1")
    ∧ (∀ tag : String, sepCount tag ≠ 1 →
        version_revision_from_version_tag tag = none)
    ∧ (∀ tag : String, sepCount tag = 1 →
        ∃ v r, version_revision_from_version_tag tag = some (v, r)) := by
  refine ⟨by decide, by decide, ?_, ?_⟩
  · intro tag h
    unfold version_revision_from_version_tag
    have hl : ((reSplitSep tag.data).map (fun l => String.mk l)).length
        = sepCount tag + 1 := by
      rw [List.length_map, reSplitSep_length]; rfl
    revert hl
    generalize (reSplitSep tag.data).map (fun l => String.mk l) = L
    intro hl
    rcases L with _ | ⟨a, _ | ⟨b, _ | ⟨c, t⟩⟩⟩
    · rfl
    · rfl
    · exfalso
      simp only [List.length_cons, List.length_nil] at hl
      omega
    · rfl
  · intro tag h
    unfold version_revision_from_version_tag
    have hl : ((reSplitSep tag.data).map (fun l => String.mk l)).length
        = sepCount tag + 1 := by
      rw [List.length_map, reSplitSep_length]; rfl
    rw [h] at hl
    revert hl
    generalize (reSplitSep tag.data).map (fun l => String.mk l) = L
    intro hl
    rcases L with _ | ⟨a, _ | ⟨b, _ | ⟨c, t⟩⟩⟩
    · simp at hl
    · simp at hl
    · exact ⟨a, b, rfl⟩
    · simp only [List.length_cons] at hl; omega

/-- Witness for C2 at concrete inputs with zero and two separators. -/
theorem c2_witness :
    version_revision_from_version_tag "20170814" = none
    ∧ version_revision_from_version_tag "2017-08-14" = none
    ∧ ∃ v r, version_revision_from_version_tag "20170814_1" = some (v, r) :=
  ⟨c2_thm.2.2.1 "20170814" (by decide),
   c2_thm.2.2.1 "2017-08-14" (by decide),
   c2_thm.2.2.2 "20170814_1" (by decide)⟩

theorem checkMiscDocs_ok {fs : FS} {ds : List Path}
    (h : ∀ d ∈ ds, fs.isFile d = true) : checkMiscDocs fs ds = .ok () := by
  induction ds with
  | nil => rfl
  | cons a rest ih =>
    rw [checkMiscDocs, if_pos (h a (by simp))]
    exact ih (fun d hd => h d (by simp [hd]))

theorem checkMiscDocs_error_of_missing {fs : FS} {ds : List Path}
    (h : ∃ d ∈ ds, fs.isFile d = false) :
    ∃ d ∈ ds, fs.isFile d = false
      ∧ checkMiscDocs fs ds = .error (.mecab (missingDocMsg d)) := by
  induction ds with
  | nil => rcases h with ⟨d, hd, _⟩; cases hd
  | cons a rest ih =>
    cases ha : fs.isFile a with
    | false =>
      refine ⟨a, by simp, ha, ?_⟩
      rw [checkMiscDocs, if_neg (by simp [ha])]
    | true =>
      have h' : ∃ d ∈ rest, fs.isFile d = false := by
        rcases h with ⟨d, hd, hdf⟩
        rcases List.mem_cons.mp hd with rfl | hd'
        · rw [ha] at hdf; cases hdf
        · exact ⟨d, hd', hdf⟩
      rcases ih h' with ⟨d, hd, hdf, hrun⟩
      refine ⟨d, by simp [hd], hdf, ?_⟩
      rw [checkMiscDocs, if_pos ha, hrun]

theorem checkMiscDocs_first_missing {fs : FS} {ds : List Path} {i : Nat}
    {d : Path} (hd : ds[i]? = some d) (hmiss : fs.isFile d = false)
    (hpre : ∀ j dj, j < i → ds[j]? = some dj → fs.isFile dj = true) :
    checkMiscDocs fs ds = .error (.mecab (missingDocMsg d)) := by
  induction ds generalizing i with
  | nil => cases hd
  | cons a rest ih =>
    cases i with
    | zero =>
      simp only [List.getElem?_cons_zero, Option.some.injEq] at hd
      subst hd
      rw [checkMiscDocs, if_neg (by simp [hmiss])]
    | succ n =>
      have ha : fs.isFile a = true :=
        hpre 0 a (Nat.succ_pos n) (by simp)
      rw [checkMiscDocs, if_pos ha]
      exact ih (by simpa using hd)
        (fun j dj hj hdj => hpre (j + 1) dj (by omega) (by simpa using hdj))

/-- C1: whenever `sys.dic` is absent from the input directory, or any
misc doc is absent, `create_package` returns the corresponding
`MeCabPackageException` (whose message names the offending path by
construction of `missingDictMsg` / `missingDocMsg`) and the world is
returned untouched: no directory was created, no file linked, no
subprocess invoked, no event logged. -/
theorem c1_thm (root : Path) (package_type : String) (input_dir : Path)
    (version revision : String) (tempDir : Path) (entries : List String)
    (rc : Int) (created : Bool) (w : World) :
    (w.fs.isFile (input_dir ++ ["sys.dic"]) = false →
      create_package root package_type input_dir version revision tempDir
          entries rc created w
        = (.error (.mecab (missingDictMsg input_dir)), w))
    ∧ ((w.fs.isFile (input_dir ++ ["sys.dic"]) = false
          ∨ ∃ d ∈ MECAB_IPADIC_NEOLOGD_MISC_DOCS root, w.fs.isFile d = false) →
      ∃ msg, create_package root package_type input_dir version revision
          tempDir entries rc created w = (.error (.mecab msg), w)
        ∧ ((w.fs.isFile (input_dir ++ ["sys.dic"]) = false
              ∧ msg = missingDictMsg input_dir)
            ∨ ∃ d ∈ MECAB_IPADIC_NEOLOGD_MISC_DOCS root,
                w.fs.isFile d = false ∧ msg = missingDocMsg d)) := by
  constructor
  · intro hsys
    rw [create_package, if_pos (by simp [hsys])]
  · intro hmiss
    cases hsys : w.fs.isFile (input_dir ++ ["sys.dic"]) with
    | false =>
      refine ⟨missingDictMsg input_dir, ?_, Or.inl ⟨rfl, rfl⟩⟩
      rw [create_package, if_pos (by simp [hsys])]
    | true =>
      have hdoc : ∃ d ∈ MECAB_IPADIC_NEOLOGD_MISC_DOCS root,
          w.fs.isFile d = false := by
        rcases hmiss with h | h
        · rw [hsys] at h; cases h
        · exact h
      rcases checkMiscDocs_error_of_missing hdoc with ⟨d, hd, hdf, hrun⟩
      refine ⟨missingDocMsg d, ?_, Or.inr ⟨d, hd, hdf, rfl⟩⟩
      rw [create_package, if_neg (by simp [hsys]), hrun]

/-- Witness for C1: missing `sys.dic` (input dir `/bad`, listing empty)
and, separately, a missing misc doc (`README.ja.md` absent in `w1`). -/
theorem c1_witness :
    (create_package ["repo"] "tgz" ["bad"] "20170814" "1" ["tmp", "t"] []
        0 true w0
      = (.error (.mecab (missingDictMsg ["bad"])), w0))
    ∧ ∃ msg, create_package ["repo"] "tgz" ["in"] "20170814" "1"
        ["tmp", "t"] ["sys.dic", "matrix.bin"] 0 true w1
        = (.error (.mecab msg), w1)
      ∧ ((w1.fs.isFile (["in"] ++ ["sys.dic"]) = false
            ∧ msg = missingDictMsg ["in"])
          ∨ ∃ d ∈ MECAB_IPADIC_NEOLOGD_MISC_DOCS ["repo"],
              w1.fs.isFile d = false ∧ msg = missingDocMsg d) :=
  ⟨(c1_thm ["repo"] "tgz" ["bad"] "20170814" "1" ["tmp", "t"] [] 0 true
      w0).1 (by decide),
   (c1_thm ["repo"] "tgz" ["in"] "20170814" "1" ["tmp", "t"]
      ["sys.dic", "matrix.bin"] 0 true w1).2
    (Or.inr ⟨["repo"] ++ ["README.ja.md"], by decide, by decide⟩)⟩

/-- C9: `create_package` checks in a fixed order — `sys.dic` first, then
each misc doc in list order, then the package-type dispatch — so with
several violated preconditions the raised error is the first check's:
a missing `sys.dic` wins over any missing doc, the named doc is the first
missing one, and the unknown-package-type error is raised only when all
file checks passed. -/
theorem c9_thm (root : Path) (package_type : String) (input_dir : Path)
    (version revision : String) (tempDir : Path) (entries : List String)
    (rc : Int) (created : Bool) (w : World) :
    (w.fs.isFile (input_dir ++ ["sys.dic"]) = false →
      create_package root package_type input_dir version revision tempDir
          entries rc created w
        = (.error (.mecab (missingDictMsg input_dir)), w))
    ∧ (∀ (i : Nat) (d : Path), w.fs.isFile (input_dir ++ ["sys.dic"]) = true →
        (MECAB_IPADIC_NEOLOGD_MISC_DOCS root)[i]? = some d →
        w.fs.isFile d = false →
        (∀ (j : Nat) (dj : Path), j < i →
          (MECAB_IPADIC_NEOLOGD_MISC_DOCS root)[j]? = some dj →
          w.fs.isFile dj = true) →
        create_package root package_type input_dir version revision tempDir
            entries rc created w
          = (.error (.mecab (missingDocMsg d)), w))
    ∧ (w.fs.isFile (input_dir ++ ["sys.dic"]) = true →
        (∀ d ∈ MECAB_IPADIC_NEOLOGD_MISC_DOCS root, w.fs.isFile d = true) →
        package_type ∉ (["tgz", "deb", "rpm"] : List String) →
        create_package root package_type input_dir version revision tempDir
            entries rc created w
          = (.error (.mecab (unknownTypeMsg package_type)), w)) := by
  refine ⟨?_, ?_, ?_⟩
  · intro hsys
    rw [create_package, if_pos (by simp [hsys])]
  · intro i d hsys hd hmiss hpre
    rw [create_package, if_neg (by simp [hsys]),
      checkMiscDocs_first_missing hd hmiss hpre]
  · intro hsys hdocs htype
    have h1 : ¬ package_type = "tgz" := fun h => htype (by simp [h])
    have h2 : ¬ package_type = "deb" := fun h => htype (by simp [h])
    have h3 : ¬ package_type = "rpm" := fun h => htype (by simp [h])
    rw [create_package, if_neg (by simp [hsys]), checkMiscDocs_ok hdocs]
    simp only [beq_iff_eq, h1, h2, h3, if_false, if_neg]

/-- Witness for C9: in `w2` below both `sys.dic` and all docs are missing
and the dict error wins; in `w1` the first missing doc (`README.ja.md`,
index 1) is named even though it is not the only check that could fail
later (unknown type `"xxx"`); with everything present, type `"xxx"`
raises the unknown-type error. -/
theorem c9_witness :
    (create_package ["repo"] "xxx" ["bad"] "20170814" "1" ["tmp", "t"] []
        0 true w1
      = (.error (.mecab (missingDictMsg ["bad"])), w1))
    ∧ (create_package ["repo"] "xxx" ["in"] "20170814" "1" ["tmp", "t"] []
        0 true w1
      = (.error (.mecab (missingDocMsg (["repo"] ++ ["README.ja.md"]))), w1))
    ∧ (create_package ["repo"] "xxx" ["in"] "20170814" "1" ["tmp", "t"] []
        0 true w0
      = (.error (.mecab (unknownTypeMsg "xxx")), w0)) :=
  ⟨(c9_thm ["repo"] "xxx" ["bad"] "20170814" "1" ["tmp", "t"] [] 0 true
      w1).1 (by decide),
   (c9_thm ["repo"] "xxx" ["in"] "20170814" "1" ["tmp", "t"] [] 0 true
      w1).2.1 1 (["repo"] ++ ["README.ja.md"]) (by decide) (by decide)
      (by decide)
      (by
        intro j dj hj hdj
        have hj0 : j = 0 := by omega
        subst hj0
        rw [show (MECAB_IPADIC_NEOLOGD_MISC_DOCS ["repo"])[0]?
            = some (["repo"] ++ ["README.md"]) from rfl] at hdj
        injection hdj with h
        subst h
        decide),
   (c9_thm ["repo"] "xxx" ["in"] "20170814" "1" ["tmp", "t"] [] 0 true
      w0).2.2 (by decide) (by decide) (by decide)⟩

theorem linkW_events (src dst : Path) (w : World) :
    ∃ es, (linkW src dst w).2.events = w.events ++ es
      ∧ ∀ e ∈ es, e = Event.link src dst := by
  unfold linkW
  split
  · exact ⟨[], by simp, by simp⟩
  · split
    · exact ⟨[], by simp, by simp⟩
    · exact ⟨[Event.link src dst], by simp [logW], by simp⟩

theorem linkInputFiles_events (input_dir dstDir : Path)
    (entries : List String) (w : World) :
    ∃ es, (linkInputFiles input_dir dstDir entries w).2.events
        = w.events ++ es
      ∧ ∀ e ∈ es, ∃ s d, e = Event.link s d := by
  induction entries generalizing w with
  | nil => exact ⟨[], by simp [linkInputFiles], by simp⟩
  | cons f rest ih =>
    rw [linkInputFiles]
    split
    · rcases hlw : linkW (input_dir ++ [f]) (dstDir ++ [f]) w with ⟨r1, wa⟩
      obtain ⟨es1, hes1, h1⟩ := linkW_events (input_dir ++ [f]) (dstDir ++ [f]) w
      rw [hlw] at hes1
      dsimp only at hes1
      cases r1 with
      | ok u =>
        dsimp only
        obtain ⟨es2, hes2, h2⟩ := ih wa
        refine ⟨es1 ++ es2, ?_, ?_⟩
        · rw [hes2, hes1, List.append_assoc]
        · intro e he
          rcases List.mem_append.mp he with he1 | he2
          · exact ⟨_, _, h1 e he1⟩
          · exact h2 e he2
      | error e =>
        exact ⟨es1, hes1, fun e he => ⟨_, _, h1 e he⟩⟩
    · exact ih w

theorem linkDocs_events (dstDir : Path) (ds : List Path) (w : World) :
    ∃ es, (linkDocs dstDir ds w).2.events = w.events ++ es
      ∧ ∀ e ∈ es, ∃ s d, e = Event.link s d := by
  induction ds generalizing w with
  | nil => exact ⟨[], by simp [linkDocs], by simp⟩
  | cons doc rest ih =>
    rw [linkDocs]
    rcases hlw : linkW doc (dstDir ++ [basename doc]) w with ⟨r1, wa⟩
    obtain ⟨es1, hes1, h1⟩ := linkW_events doc (dstDir ++ [basename doc]) w
    rw [hlw] at hes1
    dsimp only at hes1
    cases r1 with
    | ok u =>
      dsimp only
      obtain ⟨es2, hes2, h2⟩ := ih wa
      refine ⟨es1 ++ es2, ?_, ?_⟩
      · rw [hes2, hes1, List.append_assoc]
      · intro e he
        rcases List.mem_append.mp he with he1 | he2
        · exact ⟨_, _, h1 e he1⟩
        · exact h2 e he2
    | error e =>
      exact ⟨es1, hes1, fun e he => ⟨_, _, h1 e he⟩⟩

theorem runToolW_rc_pos {command : List String} {cwd : Option Path}
    {rc : Int} {consumedRoot relTo out : Path} {created : Bool} {w : World}
    (hrc : rc > 0) :
    runToolW command cwd rc consumedRoot relTo out created w
      = (.error (.mecab (processFailMsg rc)), logW (.run command cwd) w) := by
  simp only [runToolW, run_command]
  rw [if_pos hrc]

/-- On a positive tool exit code each builder stops with the error before
its cleanup step: the result is an error and the appended trace has no
`rmtree` event. -/
theorem create_tgz_rc_pos (root tempDir : Path) (entries : List String)
    (rc : Int) (created : Bool) (input_dir : Path)
    (version revision : String) (w : World) (hrc : rc > 0) :
    (∃ e, (create_tgz_package root tempDir entries rc created input_dir
        version revision w).1 = .error e)
    ∧ ∃ es, (create_tgz_package root tempDir entries rc created input_dir
          version revision w).2.events = w.events ++ es
        ∧ ∀ p, Event.rmtree p ∉ es := by
  simp only [create_tgz_package]
  rcases h1 : linkInputFiles input_dir (tempDir ++ [tgzDirName version revision])
      entries (mkdirW (tempDir ++ [tgzDirName version revision])
        (mkdtempW tempDir w)) with ⟨r1, wa⟩
  obtain ⟨es1, hes1, hl1⟩ := linkInputFiles_events input_dir
    (tempDir ++ [tgzDirName version revision]) entries
    (mkdirW (tempDir ++ [tgzDirName version revision]) (mkdtempW tempDir w))
  rw [h1] at hes1
  dsimp only at hes1
  have hbase : (mkdirW (tempDir ++ [tgzDirName version revision])
      (mkdtempW tempDir w)).events
      = w.events ++ [Event.mkdtemp tempDir,
          Event.mkdir (tempDir ++ [tgzDirName version revision])] := by
    simp [mkdirW, mkdtempW, logW]
  cases r1 with
  | error e =>
    dsimp only
    refine ⟨⟨e, rfl⟩,
      ⟨[Event.mkdtemp tempDir,
          Event.mkdir (tempDir ++ [tgzDirName version revision])] ++ es1,
        ?_, ?_⟩⟩
    · rw [hes1, hbase, List.append_assoc]
    · intro p hp
      rcases List.mem_append.mp hp with hp1 | hp2
      · simp at hp1
      · rcases hl1 _ hp2 with ⟨s, d, hsd⟩; cases hsd
  | ok u =>
    dsimp only
    rcases h2 : linkDocs (tempDir ++ [tgzDirName version revision])
        (MECAB_IPADIC_NEOLOGD_MISC_DOCS root) wa with ⟨r2, wb⟩
    obtain ⟨es2, hes2, hl2⟩ := linkDocs_events
      (tempDir ++ [tgzDirName version revision])
      (MECAB_IPADIC_NEOLOGD_MISC_DOCS root) wa
    rw [h2] at hes2
    dsimp only at hes2
    cases r2 with
    | error e =>
      dsimp only
      refine ⟨⟨e, rfl⟩,
        ⟨[Event.mkdtemp tempDir,
            Event.mkdir (tempDir ++ [tgzDirName version revision])]
          ++ es1 ++ es2, ?_, ?_⟩⟩
      · rw [hes2, hes1, hbase]
        simp only [List.append_assoc]
      · intro p hp
        rcases List.mem_append.mp hp with hp1 | hp2
        · rcases List.mem_append.mp hp1 with hp3 | hp4
          · simp at hp3
          · rcases hl1 _ hp4 with ⟨s, d, hsd⟩; cases hsd
        · rcases hl2 _ hp2 with ⟨s, d, hsd⟩; cases hsd
    | ok u2 =>
      dsimp only
      rw [runToolW_rc_pos hrc]
      refine ⟨⟨.mecab (processFailMsg rc), rfl⟩,
        ⟨[Event.mkdtemp tempDir,
            Event.mkdir (tempDir ++ [tgzDirName version revision])]
          ++ es1 ++ es2
          ++ [Event.run (tarCommand tempDir version revision)
              (some tempDir)], ?_, ?_⟩⟩
      · dsimp only [logW]
        rw [hes2, hes1, hbase]
        simp only [List.append_assoc]
      · intro p hp
        rcases List.mem_append.mp hp with hp1 | hp2
        · rcases List.mem_append.mp hp1 with hp3 | hp4
          · rcases List.mem_append.mp hp3 with hp5 | hp6
            · simp at hp5
            · rcases hl1 _ hp6 with ⟨s, d, hsd⟩; cases hsd
          · rcases hl2 _ hp4 with ⟨s, d, hsd⟩; cases hsd
        · simp at hp2

theorem no_rmtree_append {es1 es2 : List Event}
    (h1 : ∀ p, Event.rmtree p ∉ es1) (h2 : ∀ p, Event.rmtree p ∉ es2) :
    ∀ p, Event.rmtree p ∉ es1 ++ es2 := by
  intro p hp
  rcases List.mem_append.mp hp with h | h
  · exact h1 p h
  · exact h2 p h

theorem no_rmtree_of_links {es : List Event}
    (h : ∀ e ∈ es, ∃ s d, e = Event.link s d) :
    ∀ p, Event.rmtree p ∉ es := by
  intro p hp
  rcases h _ hp with ⟨s, d, hsd⟩
  cases hsd

theorem create_deb_rc_pos (root tempDir : Path) (entries : List String)
    (rc : Int) (created : Bool) (input_dir : Path)
    (version revision : String) (w : World) (hrc : rc > 0) :
    (∃ e, (create_deb_package root tempDir entries rc created input_dir
        version revision w).1 = .error e)
    ∧ ∃ es, (create_deb_package root tempDir entries rc created input_dir
          version revision w).2.events = w.events ++ es
        ∧ ∀ p, Event.rmtree p ∉ es := by
  simp only [create_deb_package]
  rcases h1 : linkInputFiles input_dir
      ((tempDir ++ ["deb"]) ++ pathOfRel deb_base_lib_dir) entries
      (mkdirPW (tempDir ++ ["deb"]) (pathOfRel deb_base_doc_dir)
        (mkdirPW (tempDir ++ ["deb"]) (pathOfRel deb_base_lib_dir)
          (mkdirW (tempDir ++ ["deb"]) (mkdtempW tempDir w)))) with ⟨r1, wa⟩
  obtain ⟨es1, hes1, hl1⟩ := linkInputFiles_events input_dir
    ((tempDir ++ ["deb"]) ++ pathOfRel deb_base_lib_dir) entries
    (mkdirPW (tempDir ++ ["deb"]) (pathOfRel deb_base_doc_dir)
      (mkdirPW (tempDir ++ ["deb"]) (pathOfRel deb_base_lib_dir)
        (mkdirW (tempDir ++ ["deb"]) (mkdtempW tempDir w))))
  rw [h1] at hes1
  dsimp only at hes1
  have hbase : (mkdirPW (tempDir ++ ["deb"]) (pathOfRel deb_base_doc_dir)
      (mkdirPW (tempDir ++ ["deb"]) (pathOfRel deb_base_lib_dir)
        (mkdirW (tempDir ++ ["deb"]) (mkdtempW tempDir w)))).events
      = w.events ++ [Event.mkdtemp tempDir, Event.mkdir (tempDir ++ ["deb"]),
          Event.mkdirP ((tempDir ++ ["deb"]) ++ pathOfRel deb_base_lib_dir),
          Event.mkdirP ((tempDir ++ ["deb"]) ++ pathOfRel deb_base_doc_dir)] := by
    simp [mkdirPW, mkdirW, mkdtempW, logW]
  have hbase0 : ∀ p, Event.rmtree p
      ∉ [Event.mkdtemp tempDir, Event.mkdir (tempDir ++ ["deb"]),
          Event.mkdirP ((tempDir ++ ["deb"]) ++ pathOfRel deb_base_lib_dir),
          Event.mkdirP ((tempDir ++ ["deb"]) ++ pathOfRel deb_base_doc_dir)] := by
    intro p hp
    simp at hp
  cases r1 with
  | error e =>
    dsimp only
    refine ⟨⟨e, rfl⟩,
      ⟨[Event.mkdtemp tempDir, Event.mkdir (tempDir ++ ["deb"]),
          Event.mkdirP ((tempDir ++ ["deb"]) ++ pathOfRel deb_base_lib_dir),
          Event.mkdirP ((tempDir ++ ["deb"]) ++ pathOfRel deb_base_doc_dir)]
        ++ es1, ?_, ?_⟩⟩
    · rw [hes1, hbase, List.append_assoc]
    · exact no_rmtree_append hbase0 (no_rmtree_of_links hl1)
  | ok u =>
    dsimp only
    rcases h2 : linkDocs ((tempDir ++ ["deb"]) ++ pathOfRel deb_base_doc_dir)
        (MECAB_IPADIC_NEOLOGD_MISC_DOCS root) wa with ⟨r2, wb⟩
    obtain ⟨es2, hes2, hl2⟩ := linkDocs_events
      ((tempDir ++ ["deb"]) ++ pathOfRel deb_base_doc_dir)
      (MECAB_IPADIC_NEOLOGD_MISC_DOCS root) wa
    rw [h2] at hes2
    dsimp only at hes2
    cases r2 with
    | error e =>
      dsimp only
      refine ⟨⟨e, rfl⟩,
        ⟨[Event.mkdtemp tempDir, Event.mkdir (tempDir ++ ["deb"]),
            Event.mkdirP ((tempDir ++ ["deb"]) ++ pathOfRel deb_base_lib_dir),
            Event.mkdirP ((tempDir ++ ["deb"]) ++ pathOfRel deb_base_doc_dir)]
          ++ es1 ++ es2, ?_, ?_⟩⟩
      · rw [hes2, hes1, hbase]
        simp only [List.append_assoc]
      · exact no_rmtree_append
          (no_rmtree_append hbase0 (no_rmtree_of_links hl1))
          (no_rmtree_of_links hl2)
    | ok u2 =>
      dsimp only
      rw [runToolW_rc_pos hrc]
      refine ⟨⟨.mecab (processFailMsg rc), rfl⟩,
        ⟨[Event.mkdtemp tempDir, Event.mkdir (tempDir ++ ["deb"]),
            Event.mkdirP ((tempDir ++ ["deb"]) ++ pathOfRel deb_base_lib_dir),
            Event.mkdirP ((tempDir ++ ["deb"]) ++ pathOfRel deb_base_doc_dir)]
          ++ es1 ++ es2
          ++ [Event.writeFile (tempDir ++ ["after-install"]) afterInstallContent,
              Event.writeFile (tempDir ++ ["after-remove"]) afterRemoveContent,
              Event.run (debFpmCommand tempDir version revision) none],
          ?_, ?_⟩⟩
      · dsimp only [logW, writeFileW]
        rw [hes2, hes1, hbase]
        simp only [List.append_assoc, List.cons_append, List.nil_append,
          List.singleton_append]
      · refine no_rmtree_append (no_rmtree_append
          (no_rmtree_append hbase0 (no_rmtree_of_links hl1))
          (no_rmtree_of_links hl2)) ?_
        intro p hp
        simp at hp

theorem create_rpm_rc_pos (root tempDir : Path) (entries : List String)
    (rc : Int) (created : Bool) (input_dir : Path)
    (version revision : String) (w : World) (hrc : rc > 0) :
    (∃ e, (create_rpm_package root tempDir entries rc created input_dir
        version revision w).1 = .error e)
    ∧ ∃ es, (create_rpm_package root tempDir entries rc created input_dir
          version revision w).2.events = w.events ++ es
        ∧ ∀ p, Event.rmtree p ∉ es := by
  simp only [create_rpm_package]
  rcases h1 : linkInputFiles input_dir
      ((tempDir ++ ["rpm"]) ++ pathOfRel rpm_base_lib_dir) entries
      (mkdirPW (tempDir ++ ["rpm"]) (pathOfRel (rpmDocDirRel version))
        (mkdirPW (tempDir ++ ["rpm"]) (pathOfRel rpm_base_lib_dir)
          (mkdirW (tempDir ++ ["rpm"]) (mkdtempW tempDir w)))) with ⟨r1, wa⟩
  obtain ⟨es1, hes1, hl1⟩ := linkInputFiles_events input_dir
    ((tempDir ++ ["rpm"]) ++ pathOfRel rpm_base_lib_dir) entries
    (mkdirPW (tempDir ++ ["rpm"]) (pathOfRel (rpmDocDirRel version))
      (mkdirPW (tempDir ++ ["rpm"]) (pathOfRel rpm_base_lib_dir)
        (mkdirW (tempDir ++ ["rpm"]) (mkdtempW tempDir w))))
  rw [h1] at hes1
  dsimp only at hes1
  have hbase : (mkdirPW (tempDir ++ ["rpm"]) (pathOfRel (rpmDocDirRel version))
      (mkdirPW (tempDir ++ ["rpm"]) (pathOfRel rpm_base_lib_dir)
        (mkdirW (tempDir ++ ["rpm"]) (mkdtempW tempDir w)))).events
      = w.events ++ [Event.mkdtemp tempDir, Event.mkdir (tempDir ++ ["rpm"]),
          Event.mkdirP ((tempDir ++ ["rpm"]) ++ pathOfRel rpm_base_lib_dir),
          Event.mkdirP ((tempDir ++ ["rpm"])
            ++ pathOfRel (rpmDocDirRel version))] := by
    simp [mkdirPW, mkdirW, mkdtempW, logW]
  have hbase0 : ∀ p, Event.rmtree p
      ∉ [Event.mkdtemp tempDir, Event.mkdir (tempDir ++ ["rpm"]),
          Event.mkdirP ((tempDir ++ ["rpm"]) ++ pathOfRel rpm_base_lib_dir),
          Event.mkdirP ((tempDir ++ ["rpm"])
            ++ pathOfRel (rpmDocDirRel version))] := by
    intro p hp
    simp at hp
  cases r1 with
  | error e =>
    dsimp only
    refine ⟨⟨e, rfl⟩,
      ⟨[Event.mkdtemp tempDir, Event.mkdir (tempDir ++ ["rpm"]),
          Event.mkdirP ((tempDir ++ ["rpm"]) ++ pathOfRel rpm_base_lib_dir),
          Event.mkdirP ((tempDir ++ ["rpm"])
            ++ pathOfRel (rpmDocDirRel version))]
        ++ es1, ?_, ?_⟩⟩
    · rw [hes1, hbase, List.append_assoc]
    · exact no_rmtree_append hbase0 (no_rmtree_of_links hl1)
  | ok u =>
    dsimp only
    rcases h2 : linkDocs ((tempDir ++ ["rpm"]) ++ pathOfRel (rpmDocDirRel version))
        (MECAB_IPADIC_NEOLOGD_MISC_DOCS root) wa with ⟨r2, wb⟩
    obtain ⟨es2, hes2, hl2⟩ := linkDocs_events
      ((tempDir ++ ["rpm"]) ++ pathOfRel (rpmDocDirRel version))
      (MECAB_IPADIC_NEOLOGD_MISC_DOCS root) wa
    rw [h2] at hes2
    dsimp only at hes2
    cases r2 with
    | error e =>
      dsimp only
      refine ⟨⟨e, rfl⟩,
        ⟨[Event.mkdtemp tempDir, Event.mkdir (tempDir ++ ["rpm"]),
            Event.mkdirP ((tempDir ++ ["rpm"]) ++ pathOfRel rpm_base_lib_dir),
            Event.mkdirP ((tempDir ++ ["rpm"])
              ++ pathOfRel (rpmDocDirRel version))]
          ++ es1 ++ es2, ?_, ?_⟩⟩
      · rw [hes2, hes1, hbase]
        simp only [List.append_assoc]
      · exact no_rmtree_append
          (no_rmtree_append hbase0 (no_rmtree_of_links hl1))
          (no_rmtree_of_links hl2)
    | ok u2 =>
      dsimp only
      rw [runToolW_rc_pos hrc]
      refine ⟨⟨.mecab (processFailMsg rc), rfl⟩,
        ⟨[Event.mkdtemp tempDir, Event.mkdir (tempDir ++ ["rpm"]),
            Event.mkdirP ((tempDir ++ ["rpm"]) ++ pathOfRel rpm_base_lib_dir),
            Event.mkdirP ((tempDir ++ ["rpm"])
              ++ pathOfRel (rpmDocDirRel version))]
          ++ es1 ++ es2
          ++ [Event.run (rpmFpmCommand tempDir version revision) none],
          ?_, ?_⟩⟩
      · dsimp only [logW]
        rw [hes2, hes1, hbase]
        simp only [List.append_assoc, List.cons_append, List.nil_append,
          List.singleton_append]
      · refine no_rmtree_append (no_rmtree_append
          (no_rmtree_append hbase0 (no_rmtree_of_links hl1))
          (no_rmtree_of_links hl2)) ?_
        intro p hp
        simp at hp

/-- Counterexample to C3 as stated: a subprocess terminated by a signal
has the non-zero returncode `-9`, yet `__run_command` (which tests
`rc > 0`, not `rc != 0`) returns normally. -/
theorem c3_cex :
    (run_command ["tar"] none (-9) w0).1 = .ok () ∧ ((-9 : Int) ≠ 0) :=
  ⟨rfl, by decide⟩

/-- C3 (amended): the process runner returns normally iff the returncode
is not positive — exit code 0, but also any negative returncode (signal
termination), is treated as success — and for every positive exit code it
raises `MeCabPackageException` carrying that exit code; a positive exit
code halts each of the three builders before any further staging or
cleanup of that stage: the builder propagates the error and its run emits
no `rmtree` cleanup event at all. -/
theorem c3_thm (command : List String) (cwd : Option Path) (rc : Int)
    (w : World) :
    ((run_command command cwd rc w).1 = .ok () ↔ rc ≤ 0)
    ∧ (rc > 0 → (run_command command cwd rc w).1
        = .error (.mecab (processFailMsg rc)))
    ∧ (∀ (root tempDir input_dir : Path) (entries : List String)
        (created : Bool) (version revision : String) (wb : World), rc > 0 →
        ((∃ e, (create_tgz_package root tempDir entries rc created input_dir
            version revision wb).1 = .error e)
          ∧ ∃ es, (create_tgz_package root tempDir entries rc created
              input_dir version revision wb).2.events = wb.events ++ es
            ∧ ∀ p, Event.rmtree p ∉ es)
        ∧ ((∃ e, (create_deb_package root tempDir entries rc created input_dir
            version revision wb).1 = .error e)
          ∧ ∃ es, (create_deb_package root tempDir entries rc created
              input_dir version revision wb).2.events = wb.events ++ es
            ∧ ∀ p, Event.rmtree p ∉ es)
        ∧ ((∃ e, (create_rpm_package root tempDir entries rc created input_dir
            version revision wb).1 = .error e)
          ∧ ∃ es, (create_rpm_package root tempDir entries rc created
              input_dir version revision wb).2.events = wb.events ++ es
            ∧ ∀ p, Event.rmtree p ∉ es)) := by
  refine ⟨?_, ?_, ?_⟩
  · by_cases h : rc > 0
    · simp only [run_command, if_pos h]
      constructor
      · intro hok; cases hok
      · intro hle; omega
    · simp only [run_command, if_neg h]
      constructor
      · intro _; omega
      · intro _; trivial
  · intro h
    simp only [run_command, if_pos h]
  · intro root tempDir input_dir entries created version revision wb h
    exact ⟨create_tgz_rc_pos root tempDir entries rc created input_dir
        version revision wb h,
      create_deb_rc_pos root tempDir entries rc created input_dir
        version revision wb h,
      create_rpm_rc_pos root tempDir entries rc created input_dir
        version revision wb h⟩

/-- Witness for C3 (amended) at concrete exit codes 2 and 0. -/
theorem c3_witness :
    (run_command ["fpm"] none 2 w0).1 = .error (.mecab (processFailMsg 2))
    ∧ (run_command ["fpm"] none 0 w0).1 = .ok () :=
  ⟨(c3_thm ["fpm"] none 2 w0).2.1 (by decide),
   ((c3_thm ["fpm"] none 0 w0).1).mpr (by decide)⟩

theorem isFile_false_of_all {fs : FS} {q : Path}
    (h : ∀ pi ∈ fs.files, pi.1 ≠ q) : fs.isFile q = false := by
  rw [isFile_eq_false_iff]
  intro i hm
  exact h (q, i) hm rfl

theorem linkW_spec {src dst : Path} {w : World} {i0 : Nat}
    (hin : w.fs.inode src = some i0) (hdst : w.fs.isFile dst = false) :
    linkW src dst w = (.ok (), logW (.link src dst)
      { w with fs := { w.fs with files := (dst, i0) :: w.fs.files } }) := by
  unfold linkW
  rw [hin]
  dsimp only
  rw [if_neg (by simp [hdst])]

/-- Full characterization of the `os.listdir` link loop on a run where no
destination collides: it succeeds, the destination directory gains exactly
one hardlink per regular file of the input listing, everything else in
the world is unchanged, and the events appended are exactly the links
performed. -/
theorem linkInputFiles_spec (input_dir dstDir : Path)
    (entries : List String) (w : World)
    (hfresh : ∀ f ∈ entries, w.fs.isFile (dstDir ++ [f]) = false)
    (hnodup : entries.Nodup)
    (hne : input_dir ≠ dstDir) :
    ∃ w2, linkInputFiles input_dir dstDir entries w = (.ok (), w2)
      ∧ (∀ q i, (q, i) ∈ w2.fs.files ↔ ((q, i) ∈ w.fs.files
          ∨ ∃ f, f ∈ entries ∧ w.fs.isFile (input_dir ++ [f]) = true
              ∧ q = dstDir ++ [f]
              ∧ w.fs.inode (input_dir ++ [f]) = some i))
      ∧ w2.fs.dirs = w.fs.dirs
      ∧ w2.fs.next = w.fs.next
      ∧ w2.packages = w.packages
      ∧ w2.events = w.events ++ (entries.filter
          (fun f => w.fs.isFile (input_dir ++ [f]))).map
          (fun f => Event.link (input_dir ++ [f]) (dstDir ++ [f]))
      ∧ (∀ q, (∀ f, q ≠ dstDir ++ [f]) →
          (w2.fs.isFile q = w.fs.isFile q ∧ w2.fs.inode q = w.fs.inode q)) := by
  revert hfresh hnodup
  induction entries generalizing w with
  | nil =>
    intro hfresh hnodup
    exact ⟨w, rfl, by simp, rfl, rfl, rfl, by simp [linkInputFiles],
      fun q hq => ⟨rfl, rfl⟩⟩
  | cons f rest ih =>
    intro hfresh hnodup
    have hmem : f ∈ f :: rest := List.mem_cons_self f rest
    have hfnotin : f ∉ rest := (List.nodup_cons.mp hnodup).1
    cases hb : w.fs.isFile (input_dir ++ [f]) with
    | false =>
      rcases ih w (fun g hg => hfresh g (List.mem_cons_of_mem f hg))
          (List.Nodup.of_cons hnodup)
        with ⟨w2, hrun, hmemi, hdirs, hnext, hpkgs, hevents, hstab⟩
      refine ⟨w2, ?_, ?_, hdirs, hnext, hpkgs, ?_, hstab⟩
      · rw [linkInputFiles, if_neg (by simp [hb])]
        exact hrun
      · intro q i
        rw [hmemi q i]
        constructor
        · rintro (h | ⟨g, hg, hgf, rfl, hi⟩)
          · exact Or.inl h
          · exact Or.inr ⟨g, List.mem_cons_of_mem f hg, hgf, rfl, hi⟩
        · rintro (h | ⟨g, hg, hgf, rfl, hi⟩)
          · exact Or.inl h
          · rcases List.mem_cons.mp hg with rfl | hg'
            · rw [hb] at hgf; cases hgf
            · exact Or.inr ⟨g, hg', hgf, rfl, hi⟩
      · rw [hevents]
        simp [List.filter_cons, hb]
    | true =>
      obtain ⟨i0, hin⟩ := exists_inode_of_isFile hb
      have hdstf : w.fs.isFile (dstDir ++ [f]) = false := hfresh f hmem
      set wa := logW (.link (input_dir ++ [f]) (dstDir ++ [f]))
        { w with fs := { w.fs with
            files := (dstDir ++ [f], i0) :: w.fs.files } } with hwa
      have hstep : linkW (input_dir ++ [f]) (dstDir ++ [f]) w = (.ok (), wa) :=
        linkW_spec hin hdstf
      have hwa_files : wa.fs.files = (dstDir ++ [f], i0) :: w.fs.files := by
        simp [hwa, logW]
      have hwa_dirs : wa.fs.dirs = w.fs.dirs := by simp [hwa, logW]
      have hwa_next : wa.fs.next = w.fs.next := by simp [hwa, logW]
      have hwa_pkgs : wa.packages = w.packages := by simp [hwa, logW]
      have hwa_events : wa.events
          = w.events ++ [Event.link (input_dir ++ [f]) (dstDir ++ [f])] := by
        simp [hwa, logW]
      have hwa_isFile : ∀ q, q ≠ dstDir ++ [f]
          → wa.fs.isFile q = w.fs.isFile q := by
        intro q hq
        have hbq : ((dstDir ++ [f]) == q) = false := by
          rw [beq_eq_false_iff_ne]
          exact fun h => hq h.symm
        simp [hwa, logW, FS.isFile, List.any_cons, hbq]
      have hwa_inode : ∀ q, q ≠ dstDir ++ [f]
          → wa.fs.inode q = w.fs.inode q := by
        intro q hq
        have hbq : ((dstDir ++ [f]) == q) = false := by
          rw [beq_eq_false_iff_ne]
          exact fun h => hq h.symm
        simp [hwa, logW, FS.inode, List.find?_cons, hbq]
      have hsrc_ne : ∀ g : String, input_dir ++ [g] ≠ dstDir ++ [f] :=
        fun g h => hne (snoc_inj.mp h).1
      rcases ih wa
          (fun g hg => by
            rw [hwa_isFile _ (fun h => hfnotin ((snoc_inj.mp h).2 ▸ hg))]
            exact hfresh g (List.mem_cons_of_mem f hg))
          (List.Nodup.of_cons hnodup)
        with ⟨w2, hrun, hmemi, hdirs, hnext, hpkgs, hevents, hstab⟩
      refine ⟨w2, ?_, ?_, by rw [hdirs, hwa_dirs], by rw [hnext, hwa_next],
        by rw [hpkgs, hwa_pkgs], ?_, ?_⟩
      · rw [linkInputFiles, if_pos hb, hstep]
        exact hrun
      · intro q i
        rw [hmemi q i]
        constructor
        · rintro (hmem1 | ⟨g, hg, hgf, rfl, hi⟩)
          · rw [hwa_files] at hmem1
            rcases List.mem_cons.mp hmem1 with heq | hmem2
            · have hq : q = dstDir ++ [f] := congrArg Prod.fst heq
              have hieq : i = i0 := congrArg Prod.snd heq
              exact Or.inr ⟨f, hmem, hb, hq, by rw [hieq]; exact hin⟩
            · exact Or.inl hmem2
          · rw [hwa_isFile _ (hsrc_ne g)] at hgf
            rw [hwa_inode _ (hsrc_ne g)] at hi
            exact Or.inr ⟨g, List.mem_cons_of_mem f hg, hgf, rfl, hi⟩
        · rintro (hmem1 | ⟨g, hg, hgf, hq, hi⟩)
          · exact Or.inl (by rw [hwa_files]; exact List.mem_cons_of_mem _ hmem1)
          · rcases List.mem_cons.mp hg with rfl | hg'
            · left
              rw [hwa_files]
              rw [hin] at hi
              have hieq : i0 = i := Option.some.inj hi
              rw [hq, ← hieq]
              exact List.mem_cons_self _ _
            · right
              exact ⟨g, hg',
                by rw [hwa_isFile _ (hsrc_ne g)]; exact hgf, hq,
                by rw [hwa_inode _ (hsrc_ne g)]; exact hi⟩
      · rw [hevents, hwa_events]
        have hfc : rest.filter (fun g => wa.fs.isFile (input_dir ++ [g]))
            = rest.filter (fun g => w.fs.isFile (input_dir ++ [g])) := by
          apply List.filter_congr
          intro g hg
          rw [hwa_isFile _ (hsrc_ne g)]
        rw [hfc]
        simp [List.filter_cons, hb, List.append_assoc]
      · intro q hq
        rcases hstab q hq with ⟨h1, h2⟩
        exact ⟨by rw [h1, hwa_isFile _ (hq f)],
          by rw [h2, hwa_inode _ (hq f)]⟩

/-- Full characterization of the misc-docs link loop when every doc
exists, destinations are free and basenames are distinct. -/
theorem linkDocs_spec (dstDir : Path) (ds : List Path) (w : World)
    (hex : ∀ d ∈ ds, w.fs.isFile d = true)
    (hfresh : ∀ d ∈ ds, w.fs.isFile (dstDir ++ [basename d]) = false)
    (hnodup : (ds.map basename).Nodup)
    (hsrc : ∀ d ∈ ds, ∀ x, d ≠ dstDir ++ [x]) :
    ∃ w2, linkDocs dstDir ds w = (.ok (), w2)
      ∧ (∀ q i, (q, i) ∈ w2.fs.files ↔ ((q, i) ∈ w.fs.files
          ∨ ∃ d, d ∈ ds ∧ q = dstDir ++ [basename d]
              ∧ w.fs.inode d = some i))
      ∧ w2.fs.dirs = w.fs.dirs
      ∧ w2.fs.next = w.fs.next
      ∧ w2.packages = w.packages
      ∧ w2.events = w.events ++ ds.map
          (fun d => Event.link d (dstDir ++ [basename d]))
      ∧ (∀ q, (∀ x, q ≠ dstDir ++ [x]) →
          (w2.fs.isFile q = w.fs.isFile q ∧ w2.fs.inode q = w.fs.inode q)) := by
  revert hex hfresh hnodup hsrc
  induction ds generalizing w with
  | nil =>
    intro hex hfresh hnodup hsrc
    exact ⟨w, rfl, by simp, rfl, rfl, rfl, by simp [linkDocs],
      fun q hq => ⟨rfl, rfl⟩⟩
  | cons doc rest ih =>
    intro hex hfresh hnodup hsrc
    have hmem : doc ∈ doc :: rest := List.mem_cons_self doc rest
    have hbnotin : basename doc ∉ rest.map basename := by
      have := hnodup
      rw [List.map_cons, List.nodup_cons] at this
      exact this.1
    obtain ⟨i0, hin⟩ := exists_inode_of_isFile (hex doc hmem)
    have hdstf : w.fs.isFile (dstDir ++ [basename doc]) = false :=
      hfresh doc hmem
    set wa := logW (.link doc (dstDir ++ [basename doc]))
      { w with fs := { w.fs with
          files := (dstDir ++ [basename doc], i0) :: w.fs.files } } with hwa
    have hstep : linkW doc (dstDir ++ [basename doc]) w = (.ok (), wa) :=
      linkW_spec hin hdstf
    have hwa_files : wa.fs.files
        = (dstDir ++ [basename doc], i0) :: w.fs.files := by
      simp [hwa, logW]
    have hwa_dirs : wa.fs.dirs = w.fs.dirs := by simp [hwa, logW]
    have hwa_next : wa.fs.next = w.fs.next := by simp [hwa, logW]
    have hwa_pkgs : wa.packages = w.packages := by simp [hwa, logW]
    have hwa_events : wa.events
        = w.events ++ [Event.link doc (dstDir ++ [basename doc])] := by
      simp [hwa, logW]
    have hwa_isFile : ∀ q, q ≠ dstDir ++ [basename doc]
        → wa.fs.isFile q = w.fs.isFile q := by
      intro q hq
      have hbq : ((dstDir ++ [basename doc]) == q) = false := by
        rw [beq_eq_false_iff_ne]
        exact fun h => hq h.symm
      simp [hwa, logW, FS.isFile, List.any_cons, hbq]
    have hwa_inode : ∀ q, q ≠ dstDir ++ [basename doc]
        → wa.fs.inode q = w.fs.inode q := by
      intro q hq
      have hbq : ((dstDir ++ [basename doc]) == q) = false := by
        rw [beq_eq_false_iff_ne]
        exact fun h => hq h.symm
      simp [hwa, logW, FS.inode, List.find?_cons, hbq]
    have hsrc_ne : ∀ d, d ∈ rest → d ≠ dstDir ++ [basename doc] :=
      fun d hd => hsrc d (List.mem_cons_of_mem doc hd) (basename doc)
    rcases ih wa
        (fun d hd => by
          rw [hwa_isFile _ (hsrc_ne d hd)]
          exact hex d (List.mem_cons_of_mem doc hd))
        (fun d hd => by
          rw [hwa_isFile _ (fun h => hbnotin
            ((snoc_inj.mp h).2 ▸ List.mem_map_of_mem basename hd))]
          exact hfresh d (List.mem_cons_of_mem doc hd))
        (by
          have := hnodup
          rw [List.map_cons, List.nodup_cons] at this
          exact this.2)
        (fun d hd x => hsrc d (List.mem_cons_of_mem doc hd) x)
      with ⟨w2, hrun, hmemi, hdirs, hnext, hpkgs, hevents, hstab⟩
    refine ⟨w2, ?_, ?_, by rw [hdirs, hwa_dirs], by rw [hnext, hwa_next],
      by rw [hpkgs, hwa_pkgs], ?_, ?_⟩
    · rw [linkDocs, hstep]
      exact hrun
    · intro q i
      rw [hmemi q i]
      constructor
      · rintro (hmem1 | ⟨d, hd, rfl, hi⟩)
        · rw [hwa_files] at hmem1
          rcases List.mem_cons.mp hmem1 with heq | hmem2
          · have hq : q = dstDir ++ [basename doc] := congrArg Prod.fst heq
            have hieq : i = i0 := congrArg Prod.snd heq
            exact Or.inr ⟨doc, hmem, hq, by rw [hieq]; exact hin⟩
          · exact Or.inl hmem2
        · rw [hwa_inode _ (hsrc_ne d hd)] at hi
          exact Or.inr ⟨d, List.mem_cons_of_mem doc hd, rfl, hi⟩
      · rintro (hmem1 | ⟨d, hd, hq, hi⟩)
        · exact Or.inl (by rw [hwa_files]; exact List.mem_cons_of_mem _ hmem1)
        · rcases List.mem_cons.mp hd with rfl | hd'
          · left
            rw [hwa_files]
            rw [hin] at hi
            have hieq : i0 = i := Option.some.inj hi
            rw [hq, ← hieq]
            exact List.mem_cons_self _ _
          · right
            exact ⟨d, hd', hq,
              by rw [hwa_inode _ (hsrc_ne d hd')]; exact hi⟩
    · rw [hevents, hwa_events]
      simp [List.append_assoc]
    · intro q hq
      rcases hstab q hq with ⟨h1, h2⟩
      exact ⟨by rw [h1, hwa_isFile _ (hq (basename doc))],
        by rw [h2, hwa_inode _ (hq (basename doc))]⟩

theorem getLastD_snoc (a : Path) (x d : String) :
    (a ++ [x]).getLastD d = x := by
  induction a generalizing d with
  | nil => rfl
  | cons y ys ih =>
    rw [List.cons_append, List.getLastD_cons]
    exact ih y

theorem basename_snoc (a : Path) (x : String) : basename (a ++ [x]) = x :=
  getLastD_snoc a x ""

theorem misc_docs_basenames (root : Path) :
    (MECAB_IPADIC_NEOLOGD_MISC_DOCS root).map basename
      = ["README.md", "README.ja.md", "ChangeLog", "COPYING"] := by
  simp [MECAB_IPADIC_NEOLOGD_MISC_DOCS, MECAB_IPADIC_NEOLOGD_CHANGELOG_FILE,
    basename_snoc]

theorem string_ne_append_of_len {s t : String} (h : 0 < t.length) :
    s ≠ s ++ t := by
  intro he
  have := congrArg String.length he
  rw [String.length_append] at this
  omega

theorem pathLE_snoc_ne {a : Path} {x y : String} (h : x ≠ y) :
    pathLE (a ++ [x]) (a ++ [y]) = false := by
  cases he : pathLE (a ++ [x]) (a ++ [y]) with
  | false => rfl
  | true => exact absurd (pathLE_snoc_snoc.mp he) h

theorem mem_filesUnder {fs : FS} {root relTo : Path} {p : Path} {i : Nat} :
    (p, i) ∈ filesUnder fs root relTo
      ↔ ∃ q, (q, i) ∈ fs.files ∧ pathLE root q = true
          ∧ p = q.drop relTo.length := by
  unfold filesUnder
  rw [List.mem_filterMap]
  constructor
  · rintro ⟨⟨q, j⟩, hm, hif⟩
    cases hple : pathLE root q with
    | false => rw [hple] at hif; cases hif
    | true =>
      rw [hple] at hif
      have h2 : q.drop relTo.length = p ∧ j = i := by simpa using hif
      exact ⟨q, h2.2 ▸ hm, hple, h2.1.symm⟩
  · rintro ⟨q, hm, hple, rfl⟩
    exact ⟨(q, i), hm, by rw [hple]; simp⟩

theorem rmtreeW_facts (p : Path) (w : World) :
    (rmtreeW p w).fs.files = w.fs.files.filter (fun qi => !pathLE p qi.1)
    ∧ (rmtreeW p w).fs.dirs = w.fs.dirs.filter (fun d => !pathLE p d)
    ∧ (rmtreeW p w).fs.next = w.fs.next
    ∧ (rmtreeW p w).events = w.events ++ [Event.rmtree p]
    ∧ (rmtreeW p w).packages = w.packages := by
  refine ⟨?_, ?_, ?_, ?_, ?_⟩ <;> simp [rmtreeW, logW]

/-- `shutil.rmtree p` removes exactly the subtree at `p`: a file entry
survives (with its inode) iff it was there and is not at or below `p`. -/
theorem rmtreeW_frame (p : Path) (w : World) :
    ∀ q i, ((q, i) ∈ (rmtreeW p w).fs.files
      ↔ ((q, i) ∈ w.fs.files ∧ pathLE p q = false)) := by
  intro q i
  rw [(rmtreeW_facts p w).1, List.mem_filter]
  simp [Bool.not_eq_true']

theorem runToolW_ok_true {command : List String} {cwd : Option Path}
    {rc : Int} {consumedRoot relTo out : Path} {w : World} (hrc : rc ≤ 0) :
    runToolW command cwd rc consumedRoot relTo out true w
      = (.ok (), ⟨⟨(out, w.fs.next) :: w.fs.files, w.fs.dirs, w.fs.next + 1⟩,
          w.events ++ [Event.run command cwd],
          w.packages ++ [⟨out, filesUnder w.fs consumedRoot relTo,
            dirsUnder w.fs consumedRoot relTo⟩]⟩) := by
  simp only [runToolW, run_command]
  rw [if_neg (by omega)]
  dsimp only
  simp [logW]

theorem runToolW_ok_false {command : List String} {cwd : Option Path}
    {rc : Int} {consumedRoot relTo out : Path} {w : World} (hrc : rc ≤ 0) :
    runToolW command cwd rc consumedRoot relTo out false w
      = (.ok (), logW (.run command cwd) w) := by
  simp only [runToolW, run_command]
  rw [if_neg (by omega)]
  dsimp only
  simp [logW]

/-- Full characterization of a successful `create_tgz_package` run
(`tar` exited 0) on a fresh temp directory: the returned path, the final
filesystem (initial files plus — when `tar` produced it — the tarball,
staging gone), the recorded archive contents (exactly the input-dir
regular files and the misc docs, hardlinked, under the single root
directory), and the exact event trace. -/
theorem create_tgz_spec (root tempDir input_dir : Path)
    (entries : List String) (rc : Int) (created : Bool)
    (version revision : String) (w : World)
    (hrc : rc ≤ 0)
    (hfreshF : ∀ pi ∈ w.fs.files, pathLE tempDir pi.1 = false)
    (hfreshD : ∀ d ∈ w.fs.dirs, pathLE tempDir d = false)
    (hin : pathLE tempDir input_dir = false)
    (hnodup : entries.Nodup)
    (hdocs : ∀ d ∈ MECAB_IPADIC_NEOLOGD_MISC_DOCS root,
      w.fs.isFile d = true)
    (hdocsT : ∀ d ∈ MECAB_IPADIC_NEOLOGD_MISC_DOCS root,
      pathLE tempDir d = false)
    (hcol : ∀ d ∈ MECAB_IPADIC_NEOLOGD_MISC_DOCS root,
      basename d ∉ entries) :
    ∃ W, create_tgz_package root tempDir entries rc created input_dir
        version revision w
      = (.ok (tempDir ++ [tgzDirName version revision ++ ".tgz"]), W)
      ∧ (∀ (q : Path) (i : Nat), (q, i) ∈ W.fs.files
          ↔ ((q, i) ∈ w.fs.files
            ∨ (created = true
               ∧ q = tempDir ++ [tgzDirName version revision ++ ".tgz"]
               ∧ i = w.fs.next)))
      ∧ W.fs.dirs = tempDir :: w.fs.dirs
      ∧ (created = true → ∃ pkg, W.packages = w.packages ++ [pkg]
          ∧ pkg.out = tempDir ++ [tgzDirName version revision ++ ".tgz"]
          ∧ pkg.dirs = [[tgzDirName version revision]]
          ∧ (∀ (q : Path) (i : Nat), (q, i) ∈ pkg.files ↔
              ((∃ f, f ∈ entries ∧ w.fs.isFile (input_dir ++ [f]) = true
                  ∧ q = [tgzDirName version revision, f]
                  ∧ w.fs.inode (input_dir ++ [f]) = some i)
               ∨ (∃ d, d ∈ MECAB_IPADIC_NEOLOGD_MISC_DOCS root
                  ∧ q = [tgzDirName version revision, basename d]
                  ∧ w.fs.inode d = some i))))
      ∧ (created = false → W.packages = w.packages)
      ∧ W.events = w.events ++ ([Event.mkdtemp tempDir,
            Event.mkdir (tempDir ++ [tgzDirName version revision])]
          ++ (entries.filter (fun f => w.fs.isFile (input_dir ++ [f]))).map
              (fun f => Event.link (input_dir ++ [f])
                ((tempDir ++ [tgzDirName version revision]) ++ [f]))
          ++ (MECAB_IPADIC_NEOLOGD_MISC_DOCS root).map
              (fun d => Event.link d
                ((tempDir ++ [tgzDirName version revision]) ++ [basename d]))
          ++ [Event.run (tarCommand tempDir version revision) (some tempDir),
              Event.rmtree (tempDir ++ [tgzDirName version revision])]) := by
  set dn := tgzDirName version revision with hdn
  set staging := tempDir ++ [dn] with hstag
  set out := tempDir ++ [dn ++ ".tgz"] with hout
  have hplE_staging : pathLE tempDir staging = true := by
    rw [hstag]; exact pathLE_append _ _
  have hstag_child : ∀ x : String, pathLE tempDir (staging ++ [x]) = true := by
    intro x
    rw [hstag, List.append_assoc]
    exact pathLE_append _ _
  have hw_not_tempDir : ∀ (q : Path) (i : Nat), (q, i) ∈ w.fs.files
      → pathLE tempDir q = false := fun q i hm => hfreshF (q, i) hm
  have hw_not_staging_child : ∀ x : String,
      w.fs.isFile (staging ++ [x]) = false := by
    intro x
    apply isFile_false_of_all
    intro pi hpi h
    have h1 := hfreshF pi hpi
    rw [h, hstag_child x] at h1
    cases h1
  have hw_staging_false : ∀ (q : Path) (i : Nat), (q, i) ∈ w.fs.files
      → pathLE staging q = false := by
    intro q i hm
    cases hx : pathLE staging q with
    | false => rfl
    | true =>
      have h2 := pathLE_trans hplE_staging hx
      rw [hw_not_tempDir q i hm] at h2
      cases h2
  set base := mkdirW staging (mkdtempW tempDir w) with hbase
  have hbase_files : base.fs.files = w.fs.files := by
    simp [hbase, mkdirW, mkdtempW, logW]
  have hbase_dirs : base.fs.dirs = staging :: tempDir :: w.fs.dirs := by
    simp [hbase, mkdirW, mkdtempW, logW]
  have hbase_next : base.fs.next = w.fs.next := by
    simp [hbase, mkdirW, mkdtempW, logW]
  have hbase_pkgs : base.packages = w.packages := by
    simp [hbase, mkdirW, mkdtempW, logW]
  have hbase_events : base.events
      = w.events ++ [Event.mkdtemp tempDir, Event.mkdir staging] := by
    simp [hbase, mkdirW, mkdtempW, logW]
  have hbase_isFile : ∀ q, base.fs.isFile q = w.fs.isFile q := by
    intro q
    unfold FS.isFile
    rw [hbase_files]
  have hbase_inode : ∀ q, base.fs.inode q = w.fs.inode q := by
    intro q
    unfold FS.inode
    rw [hbase_files]
  obtain ⟨wa, hrun1, hmem1, hdirs1, hnext1, hpkgs1, hev1, hstab1⟩ :=
    linkInputFiles_spec input_dir staging entries base
      (fun f hf => by rw [hbase_isFile]; exact hw_not_staging_child f)
      hnodup
      (by
        intro h
        rw [h, hplE_staging] at hin
        cases hin)
  have hmem1' : ∀ (q : Path) (i : Nat), (q, i) ∈ wa.fs.files
      ↔ ((q, i) ∈ w.fs.files
        ∨ ∃ f, f ∈ entries ∧ w.fs.isFile (input_dir ++ [f]) = true
            ∧ q = staging ++ [f]
            ∧ w.fs.inode (input_dir ++ [f]) = some i) := by
    intro q i
    rw [hmem1 q i]
    simp only [hbase_files, hbase_isFile, hbase_inode]
  have hwa_dirs : wa.fs.dirs = staging :: tempDir :: w.fs.dirs := by
    rw [hdirs1, hbase_dirs]
  have hwa_next : wa.fs.next = w.fs.next := by rw [hnext1, hbase_next]
  have hwa_pkgs : wa.packages = w.packages := by rw [hpkgs1, hbase_pkgs]
  have hwa_events : wa.events = w.events
      ++ [Event.mkdtemp tempDir, Event.mkdir staging]
      ++ (entries.filter (fun f => w.fs.isFile (input_dir ++ [f]))).map
          (fun f => Event.link (input_dir ++ [f]) (staging ++ [f])) := by
    rw [hev1, hbase_events]
    congr 1
  have hdoc_ne_child : ∀ d ∈ MECAB_IPADIC_NEOLOGD_MISC_DOCS root,
      ∀ x, d ≠ staging ++ [x] := by
    intro d hd x he
    have h1 := hdocsT d hd
    rw [he, hstag_child x] at h1
    cases h1
  have hwa_doc_isFile : ∀ d ∈ MECAB_IPADIC_NEOLOGD_MISC_DOCS root,
      wa.fs.isFile d = w.fs.isFile d := by
    intro d hd
    rw [(hstab1 d (hdoc_ne_child d hd)).1, hbase_isFile]
  have hwa_doc_inode : ∀ d ∈ MECAB_IPADIC_NEOLOGD_MISC_DOCS root,
      wa.fs.inode d = w.fs.inode d := by
    intro d hd
    rw [(hstab1 d (hdoc_ne_child d hd)).2, hbase_inode]
  have hwa_fresh_doc : ∀ d ∈ MECAB_IPADIC_NEOLOGD_MISC_DOCS root,
      wa.fs.isFile (staging ++ [basename d]) = false := by
    intro d hd
    rw [isFile_eq_false_iff]
    intro i hmemi
    rw [hmem1' _ i] at hmemi
    rcases hmemi with hw | ⟨f, hf, hisf, heq, hi⟩
    · have h1 := hw_staging_false _ i hw
      rw [pathLE_append] at h1
      cases h1
    · have h2 : basename d = f := (snoc_inj.mp heq).2
      exact hcol d hd (h2 ▸ hf)
  obtain ⟨wb, hrun2, hmem2, hdirs2, hnext2, hpkgs2, hev2, hstab2⟩ :=
    linkDocs_spec staging (MECAB_IPADIC_NEOLOGD_MISC_DOCS root) wa
      (fun d hd => by rw [hwa_doc_isFile d hd]; exact hdocs d hd)
      hwa_fresh_doc
      (by rw [misc_docs_basenames]; decide)
      hdoc_ne_child
  have hmem2' : ∀ (q : Path) (i : Nat), (q, i) ∈ wb.fs.files
      ↔ ((q, i) ∈ w.fs.files
        ∨ (∃ f, f ∈ entries ∧ w.fs.isFile (input_dir ++ [f]) = true
            ∧ q = staging ++ [f]
            ∧ w.fs.inode (input_dir ++ [f]) = some i)
        ∨ (∃ d, d ∈ MECAB_IPADIC_NEOLOGD_MISC_DOCS root
            ∧ q = staging ++ [basename d] ∧ w.fs.inode d = some i)) := by
    intro q i
    rw [hmem2 q i]
    constructor
    · rintro (h | ⟨d, hd, hq, hi⟩)
      · rcases (hmem1' q i).mp h with h1 | h1
        · exact Or.inl h1
        · exact Or.inr (Or.inl h1)
      · rw [hwa_doc_inode d hd] at hi
        exact Or.inr (Or.inr ⟨d, hd, hq, hi⟩)
    · rintro (h | h | ⟨d, hd, hq, hi⟩)
      · exact Or.inl ((hmem1' q i).mpr (Or.inl h))
      · exact Or.inl ((hmem1' q i).mpr (Or.inr h))
      · exact Or.inr ⟨d, hd, hq, by rw [hwa_doc_inode d hd]; exact hi⟩
  have hwb_dirs : wb.fs.dirs = staging :: tempDir :: w.fs.dirs := by
    rw [hdirs2, hwa_dirs]
  have hwb_next : wb.fs.next = w.fs.next := by rw [hnext2, hwa_next]
  have hwb_pkgs : wb.packages = w.packages := by rw [hpkgs2, hwa_pkgs]
  have hwb_events : wb.events = w.events
      ++ [Event.mkdtemp tempDir, Event.mkdir staging]
      ++ (entries.filter (fun f => w.fs.isFile (input_dir ++ [f]))).map
          (fun f => Event.link (input_dir ++ [f]) (staging ++ [f]))
      ++ (MECAB_IPADIC_NEOLOGD_MISC_DOCS root).map
          (fun d => Event.link d (staging ++ [basename d])) := by
    rw [hev2, hwa_events]
  have hstaging_staging : pathLE staging staging = true := pathLE_refl staging
  have hstaging_tempDir : pathLE staging tempDir = false := by
    apply pathLE_eq_false_of_length
    rw [hstag]
    simp
  have hstaging_wdirs : ∀ d ∈ w.fs.dirs, pathLE staging d = false := by
    intro d hd
    cases hx : pathLE staging d with
    | false => rfl
    | true =>
      have h2 := pathLE_trans hplE_staging hx
      rw [hfreshD d hd] at h2
      cases h2
  have hdn_ne : dn ≠ dn ++ ".tgz" := string_ne_append_of_len (by decide)
  have hstaging_out : pathLE staging out = false := by
    rw [hstag, hout, pathLE_append_same]
    simp [pathLE, hdn_ne]
  have hstaging_child_true : ∀ x : String,
      pathLE staging (staging ++ [x]) = true := fun x => pathLE_append _ _
  -- the wb-side membership facts needed for the archive characterization
  have harch : ∀ (p : Path) (i : Nat),
      (p, i) ∈ filesUnder wb.fs staging tempDir ↔
        ((∃ f, f ∈ entries ∧ w.fs.isFile (input_dir ++ [f]) = true
            ∧ p = [dn, f] ∧ w.fs.inode (input_dir ++ [f]) = some i)
         ∨ (∃ d, d ∈ MECAB_IPADIC_NEOLOGD_MISC_DOCS root
            ∧ p = [dn, basename d] ∧ w.fs.inode d = some i)) := by
    intro p i
    rw [mem_filesUnder]
    constructor
    · rintro ⟨q, hq, hple, rfl⟩
      rcases (hmem2' q i).mp hq with h | ⟨f, hf, hisf, rfl, hi⟩ | ⟨d, hd, rfl, hi⟩
      · rw [hw_staging_false q i h] at hple
        cases hple
      · left
        refine ⟨f, hf, hisf, ?_, hi⟩
        rw [hstag, List.append_assoc, List.drop_left]
        rfl
      · right
        refine ⟨d, hd, ?_, hi⟩
        rw [hstag, List.append_assoc, List.drop_left]
        rfl
    · rintro (⟨f, hf, hisf, rfl, hi⟩ | ⟨d, hd, rfl, hi⟩)
      · refine ⟨staging ++ [f], ?_, hstaging_child_true f, ?_⟩
        · exact (hmem2' _ i).mpr (Or.inr (Or.inl ⟨f, hf, hisf, rfl, hi⟩))
        · rw [hstag, List.append_assoc, List.drop_left]
          rfl
      · refine ⟨staging ++ [basename d], ?_, hstaging_child_true _, ?_⟩
        · exact (hmem2' _ i).mpr (Or.inr (Or.inr ⟨d, hd, rfl, hi⟩))
        · rw [hstag, List.append_assoc, List.drop_left]
          rfl
  have harchd : dirsUnder wb.fs staging tempDir = [[dn]] := by
    unfold dirsUnder
    rw [hwb_dirs, List.filter_cons, List.filter_cons]
    rw [hstaging_staging, hstaging_tempDir]
    simp only [if_pos, if_neg, Bool.false_eq_true, not_false_iff]
    rw [List.filter_eq_nil_iff.mpr (by
      intro d hd
      rw [hstaging_wdirs d hd]
      simp)]
    simp [hstag, List.drop_left]
  -- assemble, by case on whether the tool produced the artifact
  cases created with
  | true =>
    refine ⟨rmtreeW staging
      ⟨⟨(out, wb.fs.next) :: wb.fs.files, wb.fs.dirs, wb.fs.next + 1⟩,
        wb.events ++ [Event.run (tarCommand tempDir version revision)
          (some tempDir)],
        wb.packages ++ [⟨out, filesUnder wb.fs staging tempDir,
          dirsUnder wb.fs staging tempDir⟩]⟩, ?_, ?_, ?_, ?_, ?_, ?_⟩
    · simp only [create_tgz_package]
      rw [← hdn, ← hstag, ← hbase, ← hout, hrun1]
      dsimp only
      rw [hrun2]
      dsimp only
      rw [runToolW_ok_true hrc]
    · intro q i
      rw [rmtreeW_frame]
      dsimp only
      rw [List.mem_cons]
      constructor
      · rintro ⟨h1 | h1, h2⟩
        · have hq : q = out := congrArg Prod.fst h1
          have hi : i = wb.fs.next := congrArg Prod.snd h1
          exact Or.inr ⟨rfl, hq, by rw [hi, hwb_next]⟩
        · rcases (hmem2' q i).mp h1 with h | ⟨f, hf, hisf, rfl, hi⟩
            | ⟨d, hd, rfl, hi⟩
          · exact Or.inl h
          · rw [hstaging_child_true f] at h2
            cases h2
          · rw [hstaging_child_true _] at h2
            cases h2
      · rintro (h | ⟨_, rfl, rfl⟩)
        · exact ⟨Or.inr ((hmem2' q i).mpr (Or.inl h)),
            hw_staging_false q i h⟩
        · exact ⟨Or.inl (by rw [hwb_next]), hstaging_out⟩
    · rw [(rmtreeW_facts staging _).2.1]
      dsimp only
      rw [hwb_dirs, List.filter_cons, List.filter_cons, hstaging_staging,
        hstaging_tempDir]
      simp only [Bool.not_true, Bool.not_false, if_neg, if_pos,
        Bool.false_eq_true, not_false_iff]
      rw [List.filter_eq_self.mpr (by
        intro d hd
        rw [hstaging_wdirs d hd]
        simp)]
    · intro _
      refine ⟨⟨out, filesUnder wb.fs staging tempDir,
        dirsUnder wb.fs staging tempDir⟩, ?_, rfl, harchd, harch⟩
      rw [(rmtreeW_facts staging _).2.2.2.2]
      dsimp only
      rw [hwb_pkgs]
    · intro h
      cases h
    · rw [(rmtreeW_facts staging _).2.2.2.1]
      dsimp only
      rw [hwb_events]
      simp only [List.append_assoc, List.cons_append, List.nil_append,
        List.singleton_append]
  | false =>
    refine ⟨rmtreeW staging (logW (.run (tarCommand tempDir version revision)
        (some tempDir)) wb), ?_, ?_, ?_, ?_, ?_, ?_⟩
    · simp only [create_tgz_package]
      rw [← hdn, ← hstag, ← hbase, ← hout, hrun1]
      dsimp only
      rw [hrun2]
      dsimp only
      rw [runToolW_ok_false hrc]
    · intro q i
      rw [rmtreeW_frame]
      simp only [logW]
      constructor
      · rintro ⟨h1, h2⟩
        rcases (hmem2' q i).mp h1 with h | ⟨f, hf, hisf, rfl, hi⟩
          | ⟨d, hd, rfl, hi⟩
        · exact Or.inl h
        · rw [hstaging_child_true f] at h2
          cases h2
        · rw [hstaging_child_true _] at h2
          cases h2
      · rintro (h | ⟨hc, _, _⟩)
        · exact ⟨(hmem2' q i).mpr (Or.inl h), hw_staging_false q i h⟩
        · cases hc
    · rw [(rmtreeW_facts staging _).2.1]
      simp only [logW]
      rw [hwb_dirs, List.filter_cons, List.filter_cons, hstaging_staging,
        hstaging_tempDir]
      simp only [Bool.not_true, Bool.not_false, if_neg, if_pos,
        Bool.false_eq_true, not_false_iff]
      rw [List.filter_eq_self.mpr (by
        intro d hd
        rw [hstaging_wdirs d hd]
        simp)]
    · intro h
      cases h
    · intro _
      rw [(rmtreeW_facts staging _).2.2.2.2]
      simp only [logW]
      rw [hwb_pkgs]
    · rw [(rmtreeW_facts staging _).2.2.2.1]
      simp only [logW]
      rw [hwb_events]
      simp only [List.append_assoc, List.cons_append, List.nil_append,
        List.singleton_append]

theorem pathLE_singleton {x y : String} : pathLE [x] [y] = (x == y) := by
  simp [pathLE]

theorem debName_ne_deb (version revision : String) :
    ("deb" : String) ≠ debName version revision := by
  intro h
  have h2 := congrArg String.length h
  simp only [debName, String.length_append] at h2
  rw [(by decide : (MECAB_IPADIC_NEOLOGD_NAME).length = 20),
    (by decide : ("_" : String).length = 1),
    (by decide : ("-" : String).length = 1),
    (by decide : ("_all.deb" : String).length = 8),
    (by decide : ("deb" : String).length = 3)] at h2
  omega

theorem rpmName_ne_rpm (version revision : String) :
    ("rpm" : String) ≠ rpmName version revision := by
  intro h
  have h2 := congrArg String.length h
  simp only [rpmName, String.length_append] at h2
  rw [(by decide : (MECAB_IPADIC_NEOLOGD_NAME).length = 20),
    (by decide : ("_" : String).length = 1),
    (by decide : ("-" : String).length = 1),
    (by decide : ("_all.rpm" : String).length = 8),
    (by decide : ("rpm" : String).length = 3)] at h2
  omega

/-- Full characterization of a successful `create_deb_package` run on a
fresh temp directory: the returned path, the final filesystem (initial
files plus the two maintainer scripts and — when `fpm` produced it — the
`.deb`, staging gone), the recorded package contents (dictionary files
under `var/lib/mecab/dic/ipadic-neologd`, docs under
`usr/share/doc/mecab-ipadic-neologd`, hardlinked), and the exact event
trace. -/
theorem create_deb_spec (root tempDir input_dir : Path)
    (entries : List String) (rc : Int) (created : Bool)
    (version revision : String) (w : World)
    (hrc : rc ≤ 0)
    (hfreshF : ∀ pi ∈ w.fs.files, pathLE tempDir pi.1 = false)
    (hfreshD : ∀ d ∈ w.fs.dirs, pathLE tempDir d = false)
    (hin : pathLE tempDir input_dir = false)
    (hnodup : entries.Nodup)
    (hdocs : ∀ d ∈ MECAB_IPADIC_NEOLOGD_MISC_DOCS root,
      w.fs.isFile d = true)
    (hdocsT : ∀ d ∈ MECAB_IPADIC_NEOLOGD_MISC_DOCS root,
      pathLE tempDir d = false)
    (hcol : ∀ d ∈ MECAB_IPADIC_NEOLOGD_MISC_DOCS root,
      basename d ∉ entries) :
    ∃ W, create_deb_package root tempDir entries rc created input_dir
        version revision w
      = (.ok (tempDir ++ [debName version revision]), W)
      ∧ (∀ (q : Path) (i : Nat), (q, i) ∈ W.fs.files
          ↔ ((q, i) ∈ w.fs.files
            ∨ (q = tempDir ++ ["after-install"] ∧ i = w.fs.next)
            ∨ (q = tempDir ++ ["after-remove"] ∧ i = w.fs.next + 1)
            ∨ (created = true ∧ q = tempDir ++ [debName version revision]
               ∧ i = w.fs.next + 2)))
      ∧ W.fs.dirs = tempDir :: w.fs.dirs
      ∧ (created = true → ∃ pkg, W.packages = w.packages ++ [pkg]
          ∧ pkg.out = tempDir ++ [debName version revision]
          ∧ (∀ (q : Path) (i : Nat), (q, i) ∈ pkg.files ↔
              ((∃ f, f ∈ entries ∧ w.fs.isFile (input_dir ++ [f]) = true
                  ∧ q = pathOfRel deb_base_lib_dir ++ [f]
                  ∧ w.fs.inode (input_dir ++ [f]) = some i)
               ∨ (∃ d, d ∈ MECAB_IPADIC_NEOLOGD_MISC_DOCS root
                  ∧ q = pathOfRel deb_base_doc_dir ++ [basename d]
                  ∧ w.fs.inode d = some i))))
      ∧ (created = false → W.packages = w.packages)
      ∧ W.events = w.events ++ ([Event.mkdtemp tempDir,
            Event.mkdir (tempDir ++ ["deb"]),
            Event.mkdirP ((tempDir ++ ["deb"]) ++ pathOfRel deb_base_lib_dir),
            Event.mkdirP ((tempDir ++ ["deb"]) ++ pathOfRel deb_base_doc_dir)]
          ++ (entries.filter (fun f => w.fs.isFile (input_dir ++ [f]))).map
              (fun f => Event.link (input_dir ++ [f])
                (((tempDir ++ ["deb"]) ++ pathOfRel deb_base_lib_dir) ++ [f]))
          ++ (MECAB_IPADIC_NEOLOGD_MISC_DOCS root).map
              (fun d => Event.link d
                (((tempDir ++ ["deb"]) ++ pathOfRel deb_base_doc_dir)
                  ++ [basename d]))
          ++ [Event.writeFile (tempDir ++ ["after-install"])
                afterInstallContent,
              Event.writeFile (tempDir ++ ["after-remove"])
                afterRemoveContent,
              Event.run (debFpmCommand tempDir version revision) none,
              Event.rmtree (tempDir ++ ["deb"])]) := by
  set staging := tempDir ++ ["deb"] with hstag
  set libd := staging ++ pathOfRel deb_base_lib_dir with hlibd
  set docd := staging ++ pathOfRel deb_base_doc_dir with hdocd
  set out := tempDir ++ [debName version revision] with hout
  set aiPath := tempDir ++ ["after-install"] with hai
  set arPath := tempDir ++ ["after-remove"] with har
  have hplE_staging : pathLE tempDir staging = true := by
    rw [hstag]; exact pathLE_append _ _
  have hsub : ∀ rel : Path, pathLE tempDir (staging ++ rel) = true := by
    intro rel
    rw [hstag, List.append_assoc]
    exact pathLE_append _ _
  have hw_not_under : ∀ q : Path, pathLE tempDir q = true
      → w.fs.isFile q = false := by
    intro q hq
    apply isFile_false_of_all
    intro pi hpi h
    have h1 := hfreshF pi hpi
    rw [h, hq] at h1
    cases h1
  have hw_not_tempDir : ∀ (q : Path) (i : Nat), (q, i) ∈ w.fs.files
      → pathLE tempDir q = false := fun q i hm => hfreshF (q, i) hm
  have hw_staging_false : ∀ (q : Path) (i : Nat), (q, i) ∈ w.fs.files
      → pathLE staging q = false := by
    intro q i hm
    cases hx : pathLE staging q with
    | false => rfl
    | true =>
      have h2 := pathLE_trans hplE_staging hx
      rw [hw_not_tempDir q i hm] at h2
      cases h2
  have hlib_child : ∀ x : String, pathLE tempDir (libd ++ [x]) = true := by
    intro x
    rw [hlibd, List.append_assoc]
    exact hsub _
  have hdoc_child : ∀ x : String, pathLE tempDir (docd ++ [x]) = true := by
    intro x
    rw [hdocd, List.append_assoc]
    exact hsub _
  set base := mkdirPW staging (pathOfRel deb_base_doc_dir)
    (mkdirPW staging (pathOfRel deb_base_lib_dir)
      (mkdirW staging (mkdtempW tempDir w))) with hbase
  have hbase_files : base.fs.files = w.fs.files := by
    simp [hbase, mkdirPW, mkdirW, mkdtempW, logW]
  have hbase_dirs : base.fs.dirs
      = ((List.range (pathOfRel deb_base_doc_dir).length).map
          (fun i => staging ++ (pathOfRel deb_base_doc_dir).take (i + 1)))
        ++ (((List.range (pathOfRel deb_base_lib_dir).length).map
          (fun i => staging ++ (pathOfRel deb_base_lib_dir).take (i + 1)))
        ++ (staging :: tempDir :: w.fs.dirs)) := by
    simp [hbase, mkdirPW, mkdirW, mkdtempW, logW]
  have hbase_next : base.fs.next = w.fs.next := by
    simp [hbase, mkdirPW, mkdirW, mkdtempW, logW]
  have hbase_pkgs : base.packages = w.packages := by
    simp [hbase, mkdirPW, mkdirW, mkdtempW, logW]
  have hbase_events : base.events
      = w.events ++ [Event.mkdtemp tempDir, Event.mkdir staging,
          Event.mkdirP libd, Event.mkdirP docd] := by
    simp [hbase, hlibd, hdocd, mkdirPW, mkdirW, mkdtempW, logW]
  have hbase_isFile : ∀ q, base.fs.isFile q = w.fs.isFile q := by
    intro q
    unfold FS.isFile
    rw [hbase_files]
  have hbase_inode : ∀ q, base.fs.inode q = w.fs.inode q := by
    intro q
    unfold FS.inode
    rw [hbase_files]
  obtain ⟨wa, hrun1, hmem1, hdirs1, hnext1, hpkgs1, hev1, hstab1⟩ :=
    linkInputFiles_spec input_dir libd entries base
      (fun f hf => by
        rw [hbase_isFile]
        exact hw_not_under _ (hlib_child f))
      hnodup
      (by
        intro h
        rw [h] at hin
        rw [hlibd, hsub] at hin
        cases hin)
  have hmem1' : ∀ (q : Path) (i : Nat), (q, i) ∈ wa.fs.files
      ↔ ((q, i) ∈ w.fs.files
        ∨ ∃ f, f ∈ entries ∧ w.fs.isFile (input_dir ++ [f]) = true
            ∧ q = libd ++ [f]
            ∧ w.fs.inode (input_dir ++ [f]) = some i) := by
    intro q i
    rw [hmem1 q i]
    simp only [hbase_files, hbase_isFile, hbase_inode]
  have hwa_dirs : wa.fs.dirs = base.fs.dirs := hdirs1
  have hwa_next : wa.fs.next = w.fs.next := by rw [hnext1, hbase_next]
  have hwa_pkgs : wa.packages = w.packages := by rw [hpkgs1, hbase_pkgs]
  have hwa_events : wa.events = w.events
      ++ [Event.mkdtemp tempDir, Event.mkdir staging,
          Event.mkdirP libd, Event.mkdirP docd]
      ++ (entries.filter (fun f => w.fs.isFile (input_dir ++ [f]))).map
          (fun f => Event.link (input_dir ++ [f]) (libd ++ [f])) := by
    rw [hev1, hbase_events]
    congr 1
  have hdoc_ne_libchild : ∀ d ∈ MECAB_IPADIC_NEOLOGD_MISC_DOCS root,
      ∀ x, d ≠ libd ++ [x] := by
    intro d hd x he
    have h1 := hdocsT d hd
    rw [he, hlib_child x] at h1
    cases h1
  have hwa_doc_isFile : ∀ d ∈ MECAB_IPADIC_NEOLOGD_MISC_DOCS root,
      wa.fs.isFile d = w.fs.isFile d := by
    intro d hd
    rw [(hstab1 d (hdoc_ne_libchild d hd)).1, hbase_isFile]
  have hwa_doc_inode : ∀ d ∈ MECAB_IPADIC_NEOLOGD_MISC_DOCS root,
      wa.fs.inode d = w.fs.inode d := by
    intro d hd
    rw [(hstab1 d (hdoc_ne_libchild d hd)).2, hbase_inode]
  have hdocd_ne_libd : ∀ (x f : String), docd ++ [x] ≠ libd ++ [f] := by
    intro x f he
    have h2 := congrArg List.length he
    rw [hdocd, hlibd] at h2
    simp only [List.append_assoc, List.length_append] at h2
    rw [(by decide : (pathOfRel deb_base_doc_dir).length = 4),
      (by decide : (pathOfRel deb_base_lib_dir).length = 5)] at h2
    simp at h2
  have hwa_fresh_doc : ∀ d ∈ MECAB_IPADIC_NEOLOGD_MISC_DOCS root,
      wa.fs.isFile (docd ++ [basename d]) = false := by
    intro d hd
    rw [isFile_eq_false_iff]
    intro i hmemi
    rw [hmem1' _ i] at hmemi
    rcases hmemi with hw | ⟨f, hf, hisf, heq, hi⟩
    · have h1 := hw_not_tempDir _ i hw
      rw [hdoc_child _] at h1
      cases h1
    · exact hdocd_ne_libd _ f heq
  obtain ⟨wb, hrun2, hmem2, hdirs2, hnext2, hpkgs2, hev2, hstab2⟩ :=
    linkDocs_spec docd (MECAB_IPADIC_NEOLOGD_MISC_DOCS root) wa
      (fun d hd => by rw [hwa_doc_isFile d hd]; exact hdocs d hd)
      hwa_fresh_doc
      (by rw [misc_docs_basenames]; decide)
      (by
        intro d hd x he
        have h1 := hdocsT d hd
        rw [he, hdoc_child x] at h1
        cases h1)
  have hmem2' : ∀ (q : Path) (i : Nat), (q, i) ∈ wb.fs.files
      ↔ ((q, i) ∈ w.fs.files
        ∨ (∃ f, f ∈ entries ∧ w.fs.isFile (input_dir ++ [f]) = true
            ∧ q = libd ++ [f]
            ∧ w.fs.inode (input_dir ++ [f]) = some i)
        ∨ (∃ d, d ∈ MECAB_IPADIC_NEOLOGD_MISC_DOCS root
            ∧ q = docd ++ [basename d] ∧ w.fs.inode d = some i)) := by
    intro q i
    rw [hmem2 q i]
    constructor
    · rintro (h | ⟨d, hd, hq, hi⟩)
      · rcases (hmem1' q i).mp h with h1 | h1
        · exact Or.inl h1
        · exact Or.inr (Or.inl h1)
      · rw [hwa_doc_inode d hd] at hi
        exact Or.inr (Or.inr ⟨d, hd, hq, hi⟩)
    · rintro (h | h | ⟨d, hd, hq, hi⟩)
      · exact Or.inl ((hmem1' q i).mpr (Or.inl h))
      · exact Or.inl ((hmem1' q i).mpr (Or.inr h))
      · exact Or.inr ⟨d, hd, hq, by rw [hwa_doc_inode d hd]; exact hi⟩
  have hwb_dirs : wb.fs.dirs = base.fs.dirs := by rw [hdirs2, hwa_dirs]
  have hwb_next : wb.fs.next = w.fs.next := by rw [hnext2, hwa_next]
  have hwb_pkgs : wb.packages = w.packages := by rw [hpkgs2, hwa_pkgs]
  have hwb_events : wb.events = w.events
      ++ [Event.mkdtemp tempDir, Event.mkdir staging,
          Event.mkdirP libd, Event.mkdirP docd]
      ++ (entries.filter (fun f => w.fs.isFile (input_dir ++ [f]))).map
          (fun f => Event.link (input_dir ++ [f]) (libd ++ [f]))
      ++ (MECAB_IPADIC_NEOLOGD_MISC_DOCS root).map
          (fun d => Event.link d (docd ++ [basename d])) := by
    rw [hev2, hwa_events]
  -- the two maintainer scripts
  set wc := writeFileW arPath afterRemoveContent
    (writeFileW aiPath afterInstallContent wb) with hwc
  have hwc_files : wc.fs.files
      = (arPath, w.fs.next + 1) :: (aiPath, w.fs.next) :: wb.fs.files := by
    simp [hwc, writeFileW, logW, hwb_next]
  have hwc_dirs : wc.fs.dirs = wb.fs.dirs := by simp [hwc, writeFileW, logW]
  have hwc_next : wc.fs.next = w.fs.next + 2 := by
    simp [hwc, writeFileW, logW, hwb_next]
  have hwc_pkgs : wc.packages = w.packages := by
    simp [hwc, writeFileW, logW, hwb_pkgs]
  have hwc_events : wc.events = wb.events
      ++ [Event.writeFile aiPath afterInstallContent,
          Event.writeFile arPath afterRemoveContent] := by
    simp [hwc, writeFileW, logW]
  -- path disjointness facts for the cleanup
  have hstaging_ai : pathLE staging aiPath = false := by
    rw [hstag, hai, pathLE_append_same]
    decide
  have hstaging_ar : pathLE staging arPath = false := by
    rw [hstag, har, pathLE_append_same]
    decide
  have hstaging_out : pathLE staging out = false := by
    rw [hstag, hout, pathLE_append_same, pathLE_singleton,
      beq_eq_false_iff_ne]
    exact debName_ne_deb version revision
  have hstaging_staging : pathLE staging staging = true := pathLE_refl staging
  have hstaging_tempDir : pathLE staging tempDir = false := by
    apply pathLE_eq_false_of_length
    rw [hstag]
    simp
  have hstaging_wdirs : ∀ d ∈ w.fs.dirs, pathLE staging d = false := by
    intro d hd
    cases hx : pathLE staging d with
    | false => rfl
    | true =>
      have h2 := pathLE_trans hplE_staging hx
      rw [hfreshD d hd] at h2
      cases h2
  have hstaging_lib_child : ∀ x : String,
      pathLE staging (libd ++ [x]) = true := by
    intro x
    rw [hlibd, List.append_assoc]
    exact pathLE_append _ _
  have hstaging_doc_child : ∀ x : String,
      pathLE staging (docd ++ [x]) = true := by
    intro x
    rw [hdocd, List.append_assoc]
    exact pathLE_append _ _
  -- final directory list after cleanup
  have hdirs_final : ∀ wx : World, wx.fs.dirs = base.fs.dirs →
      (rmtreeW staging wx).fs.dirs = tempDir :: w.fs.dirs := by
    intro wx hwx
    rw [(rmtreeW_facts staging wx).2.1, hwx, hbase_dirs]
    rw [List.filter_append, List.filter_append]
    rw [List.filter_eq_nil_iff.mpr (by
      intro d hd
      rcases List.mem_map.mp hd with ⟨j, hj, rfl⟩
      simp [pathLE_append])]
    rw [List.filter_eq_nil_iff.mpr (by
      intro d hd
      rcases List.mem_map.mp hd with ⟨j, hj, rfl⟩
      simp [pathLE_append])]
    rw [List.filter_cons, List.filter_cons, hstaging_staging,
      hstaging_tempDir]
    simp only [Bool.not_true, Bool.not_false, Bool.false_eq_true,
      not_false_iff, if_neg, if_pos, List.nil_append]
    rw [List.filter_eq_self.mpr (by
      intro d hd
      rw [hstaging_wdirs d hd]
      simp)]
  -- the package contents consumed by fpm
  have harch : ∀ (p : Path) (i : Nat),
      (p, i) ∈ filesUnder wc.fs staging staging ↔
        ((∃ f, f ∈ entries ∧ w.fs.isFile (input_dir ++ [f]) = true
            ∧ p = pathOfRel deb_base_lib_dir ++ [f]
            ∧ w.fs.inode (input_dir ++ [f]) = some i)
         ∨ (∃ d, d ∈ MECAB_IPADIC_NEOLOGD_MISC_DOCS root
            ∧ p = pathOfRel deb_base_doc_dir ++ [basename d]
            ∧ w.fs.inode d = some i)) := by
    intro p i
    rw [mem_filesUnder]
    constructor
    · rintro ⟨q, hq, hple, rfl⟩
      rw [hwc_files] at hq
      rcases List.mem_cons.mp hq with heq | hq2
      · have : q = arPath := congrArg Prod.fst heq
        rw [this, hstaging_ar] at hple
        cases hple
      rcases List.mem_cons.mp hq2 with heq | hq3
      · have : q = aiPath := congrArg Prod.fst heq
        rw [this, hstaging_ai] at hple
        cases hple
      rcases (hmem2' q i).mp hq3 with h | ⟨f, hf, hisf, rfl, hi⟩
        | ⟨d, hd, rfl, hi⟩
      · rw [hw_staging_false q i h] at hple
        cases hple
      · left
        refine ⟨f, hf, hisf, ?_, hi⟩
        rw [hlibd, List.append_assoc, List.drop_left]
      · right
        refine ⟨d, hd, ?_, hi⟩
        rw [hdocd, List.append_assoc, List.drop_left]
    · rintro (⟨f, hf, hisf, rfl, hi⟩ | ⟨d, hd, rfl, hi⟩)
      · refine ⟨libd ++ [f], ?_, hstaging_lib_child f, ?_⟩
        · rw [hwc_files]
          exact List.mem_cons_of_mem _ (List.mem_cons_of_mem _
            ((hmem2' _ i).mpr (Or.inr (Or.inl ⟨f, hf, hisf, rfl, hi⟩))))
        · rw [hlibd, List.append_assoc, List.drop_left]
      · refine ⟨docd ++ [basename d], ?_, hstaging_doc_child _, ?_⟩
        · rw [hwc_files]
          exact List.mem_cons_of_mem _ (List.mem_cons_of_mem _
            ((hmem2' _ i).mpr (Or.inr (Or.inr ⟨d, hd, rfl, hi⟩))))
        · rw [hdocd, List.append_assoc, List.drop_left]
  -- membership in wc, in w-terms
  have hmemc : ∀ (q : Path) (i : Nat), (q, i) ∈ wc.fs.files
      ↔ ((q, i) ∈ w.fs.files
        ∨ (q = arPath ∧ i = w.fs.next + 1)
        ∨ (q = aiPath ∧ i = w.fs.next)
        ∨ (∃ f, f ∈ entries ∧ w.fs.isFile (input_dir ++ [f]) = true
            ∧ q = libd ++ [f]
            ∧ w.fs.inode (input_dir ++ [f]) = some i)
        ∨ (∃ d, d ∈ MECAB_IPADIC_NEOLOGD_MISC_DOCS root
            ∧ q = docd ++ [basename d] ∧ w.fs.inode d = some i)) := by
    intro q i
    rw [hwc_files, List.mem_cons, List.mem_cons, hmem2' q i]
    constructor
    · rintro (heq | heq | h | h | h)
      · exact Or.inr (Or.inl ⟨congrArg Prod.fst heq, congrArg Prod.snd heq⟩)
      · exact Or.inr (Or.inr (Or.inl
          ⟨congrArg Prod.fst heq, congrArg Prod.snd heq⟩))
      · exact Or.inl h
      · exact Or.inr (Or.inr (Or.inr (Or.inl h)))
      · exact Or.inr (Or.inr (Or.inr (Or.inr h)))
    · rintro (h | ⟨rfl, rfl⟩ | ⟨rfl, rfl⟩ | h | h)
      · exact Or.inr (Or.inr (Or.inl h))
      · exact Or.inl rfl
      · exact Or.inr (Or.inl rfl)
      · exact Or.inr (Or.inr (Or.inr (Or.inl h)))
      · exact Or.inr (Or.inr (Or.inr (Or.inr h)))
  have hmemc_final : ∀ wr : World, ∀ (q : Path) (i : Nat),
      (q, i) ∈ wr.fs.files → pathLE staging q = false
      → ((q, i) ∈ wc.fs.files
        → ((q, i) ∈ w.fs.files
          ∨ (q = aiPath ∧ i = w.fs.next)
          ∨ (q = arPath ∧ i = w.fs.next + 1))) := by
    intro wr q i _ hple hmem
    rcases (hmemc q i).mp hmem with h | ⟨rfl, rfl⟩ | ⟨rfl, rfl⟩
      | ⟨f, hf, hisf, rfl, hi⟩ | ⟨d, hd, rfl, hi⟩
    · exact Or.inl h
    · exact Or.inr (Or.inr ⟨rfl, rfl⟩)
    · exact Or.inr (Or.inl ⟨rfl, rfl⟩)
    · rw [hstaging_lib_child f] at hple
      cases hple
    · rw [hstaging_doc_child _] at hple
      cases hple
  -- assemble
  cases created with
  | true =>
    refine ⟨rmtreeW staging
      ⟨⟨(out, wc.fs.next) :: wc.fs.files, wc.fs.dirs, wc.fs.next + 1⟩,
        wc.events ++ [Event.run (debFpmCommand tempDir version revision)
          none],
        wc.packages ++ [⟨out, filesUnder wc.fs staging staging,
          dirsUnder wc.fs staging staging⟩]⟩, ?_, ?_, ?_, ?_, ?_, ?_⟩
    · simp only [create_deb_package]
      rw [← hstag, ← hlibd, ← hdocd, ← hbase, ← hout, ← hai, ← har, hrun1]
      dsimp only
      rw [hrun2]
      dsimp only
      rw [← hwc, runToolW_ok_true hrc]
    · intro q i
      rw [rmtreeW_frame]
      dsimp only
      rw [List.mem_cons]
      constructor
      · rintro ⟨h1 | h1, h2⟩
        · have hq : q = out := congrArg Prod.fst h1
          have hi : i = wc.fs.next := congrArg Prod.snd h1
          exact Or.inr (Or.inr (Or.inr ⟨rfl, hq, by rw [hi, hwc_next]⟩))
        · rcases hmemc_final _ q i h1 h2 h1 with h | ⟨rfl, rfl⟩ | ⟨rfl, rfl⟩
          · exact Or.inl h
          · exact Or.inr (Or.inl ⟨rfl, rfl⟩)
          · exact Or.inr (Or.inr (Or.inl ⟨rfl, rfl⟩))
      · rintro (h | ⟨rfl, rfl⟩ | ⟨rfl, rfl⟩ | ⟨_, rfl, rfl⟩)
        · exact ⟨Or.inr ((hmemc q i).mpr (Or.inl h)),
            hw_staging_false q i h⟩
        · exact ⟨Or.inr ((hmemc _ _).mpr (Or.inr (Or.inr (Or.inl
            ⟨rfl, rfl⟩)))), hstaging_ai⟩
        · exact ⟨Or.inr ((hmemc _ _).mpr (Or.inr (Or.inl ⟨rfl, rfl⟩))),
            hstaging_ar⟩
        · exact ⟨Or.inl (by rw [hwc_next]), hstaging_out⟩
    · exact hdirs_final _ (by
        dsimp only
        rw [hwc_dirs, hwb_dirs])
    · intro _
      refine ⟨⟨out, filesUnder wc.fs staging staging,
        dirsUnder wc.fs staging staging⟩, ?_, rfl, harch⟩
      rw [(rmtreeW_facts staging _).2.2.2.2]
      dsimp only
      rw [hwc_pkgs]
    · intro h
      cases h
    · rw [(rmtreeW_facts staging _).2.2.2.1]
      dsimp only
      rw [hwc_events, hwb_events]
      simp only [List.append_assoc, List.cons_append, List.nil_append,
        List.singleton_append]
  | false =>
    refine ⟨rmtreeW staging (logW (.run (debFpmCommand tempDir version
        revision) none) wc), ?_, ?_, ?_, ?_, ?_, ?_⟩
    · simp only [create_deb_package]
      rw [← hstag, ← hlibd, ← hdocd, ← hbase, ← hout, ← hai, ← har, hrun1]
      dsimp only
      rw [hrun2]
      dsimp only
      rw [← hwc, runToolW_ok_false hrc]
    · intro q i
      rw [rmtreeW_frame]
      simp only [logW]
      constructor
      · rintro ⟨h1, h2⟩
        rcases hmemc_final _ q i h1 h2 h1 with h | ⟨rfl, rfl⟩ | ⟨rfl, rfl⟩
        · exact Or.inl h
        · exact Or.inr (Or.inl ⟨rfl, rfl⟩)
        · exact Or.inr (Or.inr (Or.inl ⟨rfl, rfl⟩))
      · rintro (h | ⟨rfl, rfl⟩ | ⟨rfl, rfl⟩ | ⟨hc, _, _⟩)
        · exact ⟨(hmemc q i).mpr (Or.inl h), hw_staging_false q i h⟩
        · exact ⟨(hmemc _ _).mpr (Or.inr (Or.inr (Or.inl ⟨rfl, rfl⟩))),
            hstaging_ai⟩
        · exact ⟨(hmemc _ _).mpr (Or.inr (Or.inl ⟨rfl, rfl⟩)), hstaging_ar⟩
        · cases hc
    · exact hdirs_final _ (by
        simp only [logW]
        rw [hwc_dirs, hwb_dirs])
    · intro h
      cases h
    · intro _
      rw [(rmtreeW_facts staging _).2.2.2.2]
      simp only [logW]
      rw [hwc_pkgs]
    · rw [(rmtreeW_facts staging _).2.2.2.1]
      simp only [logW]
      rw [hwc_events, hwb_events]
      simp only [List.append_assoc, List.cons_append, List.nil_append,
        List.singleton_append]

theorem splitSlash_ne_nil (l : List Char) : splitSlash l ≠ [] := by
  cases l with
  | nil => simp [splitSlash]
  | cons c rest =>
    rw [splitSlash]
    split
    · simp
    · split <;> simp

theorem splitSlash_prefix (a b : List Char) (h : ('/' : Char) ∉ a) :
    splitSlash (a ++ '/' :: b) = a :: splitSlash b := by
  induction a with
  | nil => simp [splitSlash]
  | cons c rest ih =>
    have hc : ¬ c = '/' := fun hc => h (by simp [hc])
    rw [List.cons_append, splitSlash, if_neg hc,
      ih (fun hm => h (by simp [hm]))]

theorem pathOfRel_rpmDocDirRel (version : String) :
    ∃ t : Path, pathOfRel (rpmDocDirRel version)
      = "usr" :: "share" :: "doc" :: t := by
  have hdata : (rpmDocDirRel version).data
      = "usr".data ++ '/' :: ("share".data ++ '/' :: ("doc".data ++ '/' ::
          ("mecab-ipadic-neologd-".data ++ version.data))) := rfl
  rw [pathOfRel, hdata, splitSlash_prefix _ _ (by decide),
    splitSlash_prefix _ _ (by decide), splitSlash_prefix _ _ (by decide)]
  exact ⟨(splitSlash ("mecab-ipadic-neologd-".data ++ version.data)).map
    (fun l => String.mk l), by simp⟩

/-- Full characterization of a successful `create_rpm_package` run on a
fresh temp directory: the returned path, the final filesystem, the
recorded package contents (dictionary files under
`usr/lib64/mecab/dic/ipadic-neologd`, docs under
`usr/share/doc/<name>-<version>`, hardlinked), and the exact event
trace. -/
theorem create_rpm_spec (root tempDir input_dir : Path)
    (entries : List String) (rc : Int) (created : Bool)
    (version revision : String) (w : World)
    (hrc : rc ≤ 0)
    (hfreshF : ∀ pi ∈ w.fs.files, pathLE tempDir pi.1 = false)
    (hfreshD : ∀ d ∈ w.fs.dirs, pathLE tempDir d = false)
    (hin : pathLE tempDir input_dir = false)
    (hnodup : entries.Nodup)
    (hdocs : ∀ d ∈ MECAB_IPADIC_NEOLOGD_MISC_DOCS root,
      w.fs.isFile d = true)
    (hdocsT : ∀ d ∈ MECAB_IPADIC_NEOLOGD_MISC_DOCS root,
      pathLE tempDir d = false)
    (hcol : ∀ d ∈ MECAB_IPADIC_NEOLOGD_MISC_DOCS root,
      basename d ∉ entries) :
    ∃ W, create_rpm_package root tempDir entries rc created input_dir
        version revision w
      = (.ok (tempDir ++ [rpmName version revision]), W)
      ∧ (∀ (q : Path) (i : Nat), (q, i) ∈ W.fs.files
          ↔ ((q, i) ∈ w.fs.files
            ∨ (created = true ∧ q = tempDir ++ [rpmName version revision]
               ∧ i = w.fs.next)))
      ∧ W.fs.dirs = tempDir :: w.fs.dirs
      ∧ (created = true → ∃ pkg, W.packages = w.packages ++ [pkg]
          ∧ pkg.out = tempDir ++ [rpmName version revision]
          ∧ (∀ (q : Path) (i : Nat), (q, i) ∈ pkg.files ↔
              ((∃ f, f ∈ entries ∧ w.fs.isFile (input_dir ++ [f]) = true
                  ∧ q = pathOfRel rpm_base_lib_dir ++ [f]
                  ∧ w.fs.inode (input_dir ++ [f]) = some i)
               ∨ (∃ d, d ∈ MECAB_IPADIC_NEOLOGD_MISC_DOCS root
                  ∧ q = pathOfRel (rpmDocDirRel version) ++ [basename d]
                  ∧ w.fs.inode d = some i))))
      ∧ (created = false → W.packages = w.packages)
      ∧ W.events = w.events ++ ([Event.mkdtemp tempDir,
            Event.mkdir (tempDir ++ ["rpm"]),
            Event.mkdirP ((tempDir ++ ["rpm"]) ++ pathOfRel rpm_base_lib_dir),
            Event.mkdirP ((tempDir ++ ["rpm"])
              ++ pathOfRel (rpmDocDirRel version))]
          ++ (entries.filter (fun f => w.fs.isFile (input_dir ++ [f]))).map
              (fun f => Event.link (input_dir ++ [f])
                (((tempDir ++ ["rpm"]) ++ pathOfRel rpm_base_lib_dir) ++ [f]))
          ++ (MECAB_IPADIC_NEOLOGD_MISC_DOCS root).map
              (fun d => Event.link d
                (((tempDir ++ ["rpm"]) ++ pathOfRel (rpmDocDirRel version))
                  ++ [basename d]))
          ++ [Event.run (rpmFpmCommand tempDir version revision) none,
              Event.rmtree (tempDir ++ ["rpm"])]) := by
  set staging := tempDir ++ ["rpm"] with hstag
  set libd := staging ++ pathOfRel rpm_base_lib_dir with hlibd
  set docd := staging ++ pathOfRel (rpmDocDirRel version) with hdocd
  set out := tempDir ++ [rpmName version revision] with hout
  have hplE_staging : pathLE tempDir staging = true := by
    rw [hstag]; exact pathLE_append _ _
  have hsub : ∀ rel : Path, pathLE tempDir (staging ++ rel) = true := by
    intro rel
    rw [hstag, List.append_assoc]
    exact pathLE_append _ _
  have hw_not_under : ∀ q : Path, pathLE tempDir q = true
      → w.fs.isFile q = false := by
    intro q hq
    apply isFile_false_of_all
    intro pi hpi h
    have h1 := hfreshF pi hpi
    rw [h, hq] at h1
    cases h1
  have hw_not_tempDir : ∀ (q : Path) (i : Nat), (q, i) ∈ w.fs.files
      → pathLE tempDir q = false := fun q i hm => hfreshF (q, i) hm
  have hw_staging_false : ∀ (q : Path) (i : Nat), (q, i) ∈ w.fs.files
      → pathLE staging q = false := by
    intro q i hm
    cases hx : pathLE staging q with
    | false => rfl
    | true =>
      have h2 := pathLE_trans hplE_staging hx
      rw [hw_not_tempDir q i hm] at h2
      cases h2
  have hlib_child : ∀ x : String, pathLE tempDir (libd ++ [x]) = true := by
    intro x
    rw [hlibd, List.append_assoc]
    exact hsub _
  have hdoc_child : ∀ x : String, pathLE tempDir (docd ++ [x]) = true := by
    intro x
    rw [hdocd, List.append_assoc]
    exact hsub _
  set base := mkdirPW staging (pathOfRel (rpmDocDirRel version))
    (mkdirPW staging (pathOfRel rpm_base_lib_dir)
      (mkdirW staging (mkdtempW tempDir w))) with hbase
  have hbase_files : base.fs.files = w.fs.files := by
    simp [hbase, mkdirPW, mkdirW, mkdtempW, logW]
  have hbase_dirs : base.fs.dirs
      = ((List.range (pathOfRel (rpmDocDirRel version)).length).map
          (fun i => staging ++ (pathOfRel (rpmDocDirRel version)).take (i + 1)))
        ++ (((List.range (pathOfRel rpm_base_lib_dir).length).map
          (fun i => staging ++ (pathOfRel rpm_base_lib_dir).take (i + 1)))
        ++ (staging :: tempDir :: w.fs.dirs)) := by
    simp [hbase, mkdirPW, mkdirW, mkdtempW, logW]
  have hbase_next : base.fs.next = w.fs.next := by
    simp [hbase, mkdirPW, mkdirW, mkdtempW, logW]
  have hbase_pkgs : base.packages = w.packages := by
    simp [hbase, mkdirPW, mkdirW, mkdtempW, logW]
  have hbase_events : base.events
      = w.events ++ [Event.mkdtemp tempDir, Event.mkdir staging,
          Event.mkdirP libd, Event.mkdirP docd] := by
    simp [hbase, hlibd, hdocd, mkdirPW, mkdirW, mkdtempW, logW]
  have hbase_isFile : ∀ q, base.fs.isFile q = w.fs.isFile q := by
    intro q
    unfold FS.isFile
    rw [hbase_files]
  have hbase_inode : ∀ q, base.fs.inode q = w.fs.inode q := by
    intro q
    unfold FS.inode
    rw [hbase_files]
  obtain ⟨wa, hrun1, hmem1, hdirs1, hnext1, hpkgs1, hev1, hstab1⟩ :=
    linkInputFiles_spec input_dir libd entries base
      (fun f hf => by
        rw [hbase_isFile]
        exact hw_not_under _ (hlib_child f))
      hnodup
      (by
        intro h
        rw [h] at hin
        rw [hlibd, hsub] at hin
        cases hin)
  have hmem1' : ∀ (q : Path) (i : Nat), (q, i) ∈ wa.fs.files
      ↔ ((q, i) ∈ w.fs.files
        ∨ ∃ f, f ∈ entries ∧ w.fs.isFile (input_dir ++ [f]) = true
            ∧ q = libd ++ [f]
            ∧ w.fs.inode (input_dir ++ [f]) = some i) := by
    intro q i
    rw [hmem1 q i]
    simp only [hbase_files, hbase_isFile, hbase_inode]
  have hwa_dirs : wa.fs.dirs = base.fs.dirs := hdirs1
  have hwa_next : wa.fs.next = w.fs.next := by rw [hnext1, hbase_next]
  have hwa_pkgs : wa.packages = w.packages := by rw [hpkgs1, hbase_pkgs]
  have hwa_events : wa.events = w.events
      ++ [Event.mkdtemp tempDir, Event.mkdir staging,
          Event.mkdirP libd, Event.mkdirP docd]
      ++ (entries.filter (fun f => w.fs.isFile (input_dir ++ [f]))).map
          (fun f => Event.link (input_dir ++ [f]) (libd ++ [f])) := by
    rw [hev1, hbase_events]
    congr 1
  have hdoc_ne_libchild : ∀ d ∈ MECAB_IPADIC_NEOLOGD_MISC_DOCS root,
      ∀ x, d ≠ libd ++ [x] := by
    intro d hd x he
    have h1 := hdocsT d hd
    rw [he, hlib_child x] at h1
    cases h1
  have hwa_doc_isFile : ∀ d ∈ MECAB_IPADIC_NEOLOGD_MISC_DOCS root,
      wa.fs.isFile d = w.fs.isFile d := by
    intro d hd
    rw [(hstab1 d (hdoc_ne_libchild d hd)).1, hbase_isFile]
  have hwa_doc_inode : ∀ d ∈ MECAB_IPADIC_NEOLOGD_MISC_DOCS root,
      wa.fs.inode d = w.fs.inode d := by
    intro d hd
    rw [(hstab1 d (hdoc_ne_libchild d hd)).2, hbase_inode]
  have hdocd_ne_libd : ∀ (x f : String), docd ++ [x] ≠ libd ++ [f] := by
    intro x f he
    have he2 : staging ++ (pathOfRel (rpmDocDirRel version) ++ [x])
        = staging ++ (pathOfRel rpm_base_lib_dir ++ [f]) := by
      simpa [hdocd, hlibd, List.append_assoc] using he
    have h2 := List.append_cancel_left he2
    obtain ⟨t, ht⟩ := pathOfRel_rpmDocDirRel version
    rw [ht, (by decide : pathOfRel rpm_base_lib_dir
      = ["usr", "lib64", "mecab", "dic", "ipadic-neologd"])] at h2
    simp at h2
  have hwa_fresh_doc : ∀ d ∈ MECAB_IPADIC_NEOLOGD_MISC_DOCS root,
      wa.fs.isFile (docd ++ [basename d]) = false := by
    intro d hd
    rw [isFile_eq_false_iff]
    intro i hmemi
    rw [hmem1' _ i] at hmemi
    rcases hmemi with hw | ⟨f, hf, hisf, heq, hi⟩
    · have h1 := hw_not_tempDir _ i hw
      rw [hdoc_child _] at h1
      cases h1
    · exact hdocd_ne_libd _ f heq
  obtain ⟨wb, hrun2, hmem2, hdirs2, hnext2, hpkgs2, hev2, hstab2⟩ :=
    linkDocs_spec docd (MECAB_IPADIC_NEOLOGD_MISC_DOCS root) wa
      (fun d hd => by rw [hwa_doc_isFile d hd]; exact hdocs d hd)
      hwa_fresh_doc
      (by rw [misc_docs_basenames]; decide)
      (by
        intro d hd x he
        have h1 := hdocsT d hd
        rw [he, hdoc_child x] at h1
        cases h1)
  have hmem2' : ∀ (q : Path) (i : Nat), (q, i) ∈ wb.fs.files
      ↔ ((q, i) ∈ w.fs.files
        ∨ (∃ f, f ∈ entries ∧ w.fs.isFile (input_dir ++ [f]) = true
            ∧ q = libd ++ [f]
            ∧ w.fs.inode (input_dir ++ [f]) = some i)
        ∨ (∃ d, d ∈ MECAB_IPADIC_NEOLOGD_MISC_DOCS root
            ∧ q = docd ++ [basename d] ∧ w.fs.inode d = some i)) := by
    intro q i
    rw [hmem2 q i]
    constructor
    · rintro (h | ⟨d, hd, hq, hi⟩)
      · rcases (hmem1' q i).mp h with h1 | h1
        · exact Or.inl h1
        · exact Or.inr (Or.inl h1)
      · rw [hwa_doc_inode d hd] at hi
        exact Or.inr (Or.inr ⟨d, hd, hq, hi⟩)
    · rintro (h | h | ⟨d, hd, hq, hi⟩)
      · exact Or.inl ((hmem1' q i).mpr (Or.inl h))
      · exact Or.inl ((hmem1' q i).mpr (Or.inr h))
      · exact Or.inr ⟨d, hd, hq, by rw [hwa_doc_inode d hd]; exact hi⟩
  have hwb_dirs : wb.fs.dirs = base.fs.dirs := by rw [hdirs2, hwa_dirs]
  have hwb_next : wb.fs.next = w.fs.next := by rw [hnext2, hwa_next]
  have hwb_pkgs : wb.packages = w.packages := by rw [hpkgs2, hwa_pkgs]
  have hwb_events : wb.events = w.events
      ++ [Event.mkdtemp tempDir, Event.mkdir staging,
          Event.mkdirP libd, Event.mkdirP docd]
      ++ (entries.filter (fun f => w.fs.isFile (input_dir ++ [f]))).map
          (fun f => Event.link (input_dir ++ [f]) (libd ++ [f]))
      ++ (MECAB_IPADIC_NEOLOGD_MISC_DOCS root).map
          (fun d => Event.link d (docd ++ [basename d])) := by
    rw [hev2, hwa_events]
  have hstaging_out : pathLE staging out = false := by
    rw [hstag, hout, pathLE_append_same, pathLE_singleton,
      beq_eq_false_iff_ne]
    exact rpmName_ne_rpm version revision
  have hstaging_staging : pathLE staging staging = true := pathLE_refl staging
  have hstaging_tempDir : pathLE staging tempDir = false := by
    apply pathLE_eq_false_of_length
    rw [hstag]
    simp
  have hstaging_wdirs : ∀ d ∈ w.fs.dirs, pathLE staging d = false := by
    intro d hd
    cases hx : pathLE staging d with
    | false => rfl
    | true =>
      have h2 := pathLE_trans hplE_staging hx
      rw [hfreshD d hd] at h2
      cases h2
  have hstaging_lib_child : ∀ x : String,
      pathLE staging (libd ++ [x]) = true := by
    intro x
    rw [hlibd, List.append_assoc]
    exact pathLE_append _ _
  have hstaging_doc_child : ∀ x : String,
      pathLE staging (docd ++ [x]) = true := by
    intro x
    rw [hdocd, List.append_assoc]
    exact pathLE_append _ _
  have hdirs_final : ∀ wx : World, wx.fs.dirs = base.fs.dirs →
      (rmtreeW staging wx).fs.dirs = tempDir :: w.fs.dirs := by
    intro wx hwx
    rw [(rmtreeW_facts staging wx).2.1, hwx, hbase_dirs]
    rw [List.filter_append, List.filter_append]
    rw [List.filter_eq_nil_iff.mpr (by
      intro d hd
      rcases List.mem_map.mp hd with ⟨j, hj, rfl⟩
      simp [pathLE_append])]
    rw [List.filter_eq_nil_iff.mpr (by
      intro d hd
      rcases List.mem_map.mp hd with ⟨j, hj, rfl⟩
      simp [pathLE_append])]
    rw [List.filter_cons, List.filter_cons, hstaging_staging,
      hstaging_tempDir]
    simp only [Bool.not_true, Bool.not_false, Bool.false_eq_true,
      not_false_iff, if_neg, if_pos, List.nil_append]
    rw [List.filter_eq_self.mpr (by
      intro d hd
      rw [hstaging_wdirs d hd]
      simp)]
  have harch : ∀ (p : Path) (i : Nat),
      (p, i) ∈ filesUnder wb.fs staging staging ↔
        ((∃ f, f ∈ entries ∧ w.fs.isFile (input_dir ++ [f]) = true
            ∧ p = pathOfRel rpm_base_lib_dir ++ [f]
            ∧ w.fs.inode (input_dir ++ [f]) = some i)
         ∨ (∃ d, d ∈ MECAB_IPADIC_NEOLOGD_MISC_DOCS root
            ∧ p = pathOfRel (rpmDocDirRel version) ++ [basename d]
            ∧ w.fs.inode d = some i)) := by
    intro p i
    rw [mem_filesUnder]
    constructor
    · rintro ⟨q, hq, hple, rfl⟩
      rcases (hmem2' q i).mp hq with h | ⟨f, hf, hisf, rfl, hi⟩
        | ⟨d, hd, rfl, hi⟩
      · rw [hw_staging_false q i h] at hple
        cases hple
      · left
        refine ⟨f, hf, hisf, ?_, hi⟩
        rw [hlibd, List.append_assoc, List.drop_left]
      · right
        refine ⟨d, hd, ?_, hi⟩
        rw [hdocd, List.append_assoc, List.drop_left]
    · rintro (⟨f, hf, hisf, rfl, hi⟩ | ⟨d, hd, rfl, hi⟩)
      · refine ⟨libd ++ [f], ?_, hstaging_lib_child f, ?_⟩
        · exact (hmem2' _ i).mpr (Or.inr (Or.inl ⟨f, hf, hisf, rfl, hi⟩))
        · rw [hlibd, List.append_assoc, List.drop_left]
      · refine ⟨docd ++ [basename d], ?_, hstaging_doc_child _, ?_⟩
        · exact (hmem2' _ i).mpr (Or.inr (Or.inr ⟨d, hd, rfl, hi⟩))
        · rw [hdocd, List.append_assoc, List.drop_left]
  cases created with
  | true =>
    refine ⟨rmtreeW staging
      ⟨⟨(out, wb.fs.next) :: wb.fs.files, wb.fs.dirs, wb.fs.next + 1⟩,
        wb.events ++ [Event.run (rpmFpmCommand tempDir version revision)
          none],
        wb.packages ++ [⟨out, filesUnder wb.fs staging staging,
          dirsUnder wb.fs staging staging⟩]⟩, ?_, ?_, ?_, ?_, ?_, ?_⟩
    · simp only [create_rpm_package]
      rw [← hstag, ← hlibd, ← hdocd, ← hbase, ← hout, hrun1]
      dsimp only
      rw [hrun2]
      dsimp only
      rw [runToolW_ok_true hrc]
    · intro q i
      rw [rmtreeW_frame]
      dsimp only
      rw [List.mem_cons]
      constructor
      · rintro ⟨h1 | h1, h2⟩
        · have hq : q = out := congrArg Prod.fst h1
          have hi : i = wb.fs.next := congrArg Prod.snd h1
          exact Or.inr ⟨rfl, hq, by rw [hi, hwb_next]⟩
        · rcases (hmem2' q i).mp h1 with h | ⟨f, hf, hisf, rfl, hi⟩
            | ⟨d, hd, rfl, hi⟩
          · exact Or.inl h
          · rw [hstaging_lib_child f] at h2
            cases h2
          · rw [hstaging_doc_child _] at h2
            cases h2
      · rintro (h | ⟨_, rfl, rfl⟩)
        · exact ⟨Or.inr ((hmem2' q i).mpr (Or.inl h)),
            hw_staging_false q i h⟩
        · exact ⟨Or.inl (by rw [hwb_next]), hstaging_out⟩
    · exact hdirs_final _ (by
        dsimp only
        rw [hwb_dirs])
    · intro _
      refine ⟨⟨out, filesUnder wb.fs staging staging,
        dirsUnder wb.fs staging staging⟩, ?_, rfl, harch⟩
      rw [(rmtreeW_facts staging _).2.2.2.2]
      dsimp only
      rw [hwb_pkgs]
    · intro h
      cases h
    · rw [(rmtreeW_facts staging _).2.2.2.1]
      dsimp only
      rw [hwb_events]
      simp only [List.append_assoc, List.cons_append, List.nil_append,
        List.singleton_append]
  | false =>
    refine ⟨rmtreeW staging (logW (.run (rpmFpmCommand tempDir version
        revision) none) wb), ?_, ?_, ?_, ?_, ?_, ?_⟩
    · simp only [create_rpm_package]
      rw [← hstag, ← hlibd, ← hdocd, ← hbase, ← hout, hrun1]
      dsimp only
      rw [hrun2]
      dsimp only
      rw [runToolW_ok_false hrc]
    · intro q i
      rw [rmtreeW_frame]
      simp only [logW]
      constructor
      · rintro ⟨h1, h2⟩
        rcases (hmem2' q i).mp h1 with h | ⟨f, hf, hisf, rfl, hi⟩
          | ⟨d, hd, rfl, hi⟩
        · exact Or.inl h
        · rw [hstaging_lib_child f] at h2
          cases h2
        · rw [hstaging_doc_child _] at h2
          cases h2
      · rintro (h | ⟨hc, _, _⟩)
        · exact ⟨(hmem2' q i).mpr (Or.inl h), hw_staging_false q i h⟩
        · cases hc
    · exact hdirs_final _ (by
        simp only [logW]
        rw [hwb_dirs])
    · intro h
      cases h
    · intro _
      rw [(rmtreeW_facts staging _).2.2.2.2]
      simp only [logW]
      rw [hwb_pkgs]
    · rw [(rmtreeW_facts staging _).2.2.2.1]
      simp only [logW]
      rw [hwb_events]
      simp only [List.append_assoc, List.cons_append, List.nil_append,
        List.singleton_append]

theorem debName_len (version revision : String) :
    (debName version revision).length
      = version.length + revision.length + 30 := by
  simp only [debName, String.length_append]
  rw [(by decide : (MECAB_IPADIC_NEOLOGD_NAME).length = 20),
    (by decide : ("_" : String).length = 1),
    (by decide : ("-" : String).length = 1),
    (by decide : ("_all.deb" : String).length = 8)]
  omega

theorem ne_debName_short {s : String} (version revision : String)
    (h : s.length < 30) : s ≠ debName version revision := by
  intro he
  have h2 := congrArg String.length he
  rw [debName_len] at h2
  omega

theorem create_package_tgz (root input_dir : Path)
    (version revision : String) (tempDir : Path) (entries : List String)
    (rc : Int) (created : Bool) (w : World)
    (hsys : w.fs.isFile (input_dir ++ ["sys.dic"]) = true)
    (hdocs : ∀ d ∈ MECAB_IPADIC_NEOLOGD_MISC_DOCS root,
      w.fs.isFile d = true) :
    create_package root "tgz" input_dir version revision tempDir entries
        rc created w
      = create_tgz_package root tempDir entries rc created input_dir
          version revision w := by
  rw [create_package, if_neg (by simp [hsys]), checkMiscDocs_ok hdocs]
  dsimp only
  rw [if_pos (by decide)]
  rcases create_tgz_package root tempDir entries rc created input_dir
    version revision w with ⟨r, W⟩
  cases r <;> rfl

theorem create_package_deb (root input_dir : Path)
    (version revision : String) (tempDir : Path) (entries : List String)
    (rc : Int) (created : Bool) (w : World)
    (hsys : w.fs.isFile (input_dir ++ ["sys.dic"]) = true)
    (hdocs : ∀ d ∈ MECAB_IPADIC_NEOLOGD_MISC_DOCS root,
      w.fs.isFile d = true) :
    create_package root "deb" input_dir version revision tempDir entries
        rc created w
      = create_deb_package root tempDir entries rc created input_dir
          version revision w := by
  rw [create_package, if_neg (by simp [hsys]), checkMiscDocs_ok hdocs]
  dsimp only
  rw [if_neg (by decide), if_pos (by decide)]
  rcases create_deb_package root tempDir entries rc created input_dir
    version revision w with ⟨r, W⟩
  cases r <;> rfl

theorem create_package_rpm (root input_dir : Path)
    (version revision : String) (tempDir : Path) (entries : List String)
    (rc : Int) (created : Bool) (w : World)
    (hsys : w.fs.isFile (input_dir ++ ["sys.dic"]) = true)
    (hdocs : ∀ d ∈ MECAB_IPADIC_NEOLOGD_MISC_DOCS root,
      w.fs.isFile d = true) :
    create_package root "rpm" input_dir version revision tempDir entries
        rc created w
      = create_rpm_package root tempDir entries rc created input_dir
          version revision w := by
  rw [create_package, if_neg (by simp [hsys]), checkMiscDocs_ok hdocs]
  dsimp only
  rw [if_neg (by decide), if_neg (by decide), if_pos (by decide)]
  rcases create_rpm_package root tempDir entries rc created input_dir
    version revision w with ⟨r, W⟩
  cases r <;> rfl

/-- C5: on every successful run, the artifact filename is
`<name>-<version>-<revision>.tgz` for tgz, `<name>_<version>-<revision>_all.deb`
for deb and `<name>_<version>-<revision>_all.rpm` for rpm, where `<name>` is
`mecab-ipadic-neologd`. -/
theorem c5_thm (root tempDir input_dir : Path) (entries : List String)
    (rc : Int) (created : Bool) (version revision : String) (w : World) :
    MECAB_IPADIC_NEOLOGD_NAME = "mecab-ipadic-neologd"
    ∧ (∀ p : Path, (create_tgz_package root tempDir entries rc created
          input_dir version revision w).1 = .ok p →
        p.getLast? = some (MECAB_IPADIC_NEOLOGD_NAME ++ "-" ++ version
          ++ "-" ++ revision ++ ".tgz"))
    ∧ (∀ p : Path, (create_deb_package root tempDir entries rc created
          input_dir version revision w).1 = .ok p →
        p.getLast? = some (MECAB_IPADIC_NEOLOGD_NAME ++ "_" ++ version
          ++ "-" ++ revision ++ "_all.deb"))
    ∧ (∀ p : Path, (create_rpm_package root tempDir entries rc created
          input_dir version revision w).1 = .ok p →
        p.getLast? = some (MECAB_IPADIC_NEOLOGD_NAME ++ "_" ++ version
          ++ "-" ++ revision ++ "_all.rpm")) := by
  refine ⟨rfl, ?_, ?_, ?_⟩
  · intro p hp
    simp only [create_tgz_package] at hp
    split at hp
    · simp at hp
    · split at hp
      · simp at hp
      · split at hp
        · simp at hp
        · simp only [Except.ok.injEq] at hp
          rw [← hp, List.getLast?_concat]
          rfl
  · intro p hp
    simp only [create_deb_package] at hp
    split at hp
    · simp at hp
    · split at hp
      · simp at hp
      · split at hp
        · simp at hp
        · simp only [Except.ok.injEq] at hp
          rw [← hp, List.getLast?_concat]
          rfl
  · intro p hp
    simp only [create_rpm_package] at hp
    split at hp
    · simp at hp
    · split at hp
      · simp at hp
      · split at hp
        · simp at hp
        · simp only [Except.ok.injEq] at hp
          rw [← hp, List.getLast?_concat]
          rfl

/-- Witness for C5 at a concrete successful run of each builder. -/
theorem c5_witness :
    (["tmp", "t", "mecab-ipadic-neologd-20170814-1.tgz"] : Path).getLast?
      = some (MECAB_IPADIC_NEOLOGD_NAME ++ "-" ++ "20170814" ++ "-" ++ "1"
          ++ ".tgz")
    ∧ (["tmp", "t", "mecab-ipadic-neologd_20170814-1_all.deb"] : Path).getLast?
      = some (MECAB_IPADIC_NEOLOGD_NAME ++ "_" ++ "20170814" ++ "-" ++ "1"
          ++ "_all.deb")
    ∧ (["tmp", "t", "mecab-ipadic-neologd_20170814-1_all.rpm"] : Path).getLast?
      = some (MECAB_IPADIC_NEOLOGD_NAME ++ "_" ++ "20170814" ++ "-" ++ "1"
          ++ "_all.rpm") :=
  ⟨(c5_thm ["repo"] ["tmp", "t"] ["in"] ["sys.dic", "matrix.bin"] 0 true
      "20170814" "1" w0).2.1
      ["tmp", "t", "mecab-ipadic-neologd-20170814-1.tgz"] (by rfl),
   (c5_thm ["repo"] ["tmp", "t"] ["in"] ["sys.dic", "matrix.bin"] 0 true
      "20170814" "1" w0).2.2.1
      ["tmp", "t", "mecab-ipadic-neologd_20170814-1_all.deb"] (by rfl),
   (c5_thm ["repo"] ["tmp", "t"] ["in"] ["sys.dic", "matrix.bin"] 0 true
      "20170814" "1" w0).2.2.2
      ["tmp", "t", "mecab-ipadic-neologd_20170814-1_all.rpm"] (by rfl)⟩

/-- C4: when the packaging tool exits 0 but the expected artifact file was
not produced (`created = false`), `create_package` still returns the
computed path normally for each of tgz, deb, rpm — the postcondition
exception (`createdMissingMsg`) is constructed on line 246 of the script
but never raised, so no error surfaces. -/
theorem c4_thm (root tempDir input_dir : Path) (entries : List String)
    (rc : Int) (version revision : String) (w : World)
    (hrc : rc ≤ 0)
    (hsys : w.fs.isFile (input_dir ++ ["sys.dic"]) = true)
    (hfreshF : ∀ pi ∈ w.fs.files, pathLE tempDir pi.1 = false)
    (hfreshD : ∀ d ∈ w.fs.dirs, pathLE tempDir d = false)
    (hin : pathLE tempDir input_dir = false)
    (hnodup : entries.Nodup)
    (hdocs : ∀ d ∈ MECAB_IPADIC_NEOLOGD_MISC_DOCS root,
      w.fs.isFile d = true)
    (hdocsT : ∀ d ∈ MECAB_IPADIC_NEOLOGD_MISC_DOCS root,
      pathLE tempDir d = false)
    (hcol : ∀ d ∈ MECAB_IPADIC_NEOLOGD_MISC_DOCS root,
      basename d ∉ entries) :
    (∃ W, create_package root "tgz" input_dir version revision tempDir
        entries rc false w
      = (.ok (tempDir ++ [tgzDirName version revision ++ ".tgz"]), W)
      ∧ W.fs.isFile (tempDir ++ [tgzDirName version revision ++ ".tgz"])
          = false)
    ∧ (∃ W, create_package root "deb" input_dir version revision tempDir
        entries rc false w
      = (.ok (tempDir ++ [debName version revision]), W)
      ∧ W.fs.isFile (tempDir ++ [debName version revision]) = false)
    ∧ (∃ W, create_package root "rpm" input_dir version revision tempDir
        entries rc false w
      = (.ok (tempDir ++ [rpmName version revision]), W)
      ∧ W.fs.isFile (tempDir ++ [rpmName version revision]) = false) := by
  refine ⟨?_, ?_, ?_⟩
  · obtain ⟨W, h1, hmem, _, _, _, _⟩ := create_tgz_spec root tempDir
      input_dir entries rc false version revision w hrc hfreshF hfreshD
      hin hnodup hdocs hdocsT hcol
    refine ⟨W, ?_, ?_⟩
    · rw [create_package_tgz root input_dir version revision tempDir
        entries rc false w hsys hdocs, h1]
    · rw [isFile_eq_false_iff]
      intro i hm
      rcases (hmem _ i).mp hm with h | ⟨hc, _, _⟩
      · have h2 := hfreshF _ h
        rw [pathLE_append] at h2
        cases h2
      · cases hc
  · obtain ⟨W, h1, hmem, _, _, _, _⟩ := create_deb_spec root tempDir
      input_dir entries rc false version revision w hrc hfreshF hfreshD
      hin hnodup hdocs hdocsT hcol
    refine ⟨W, ?_, ?_⟩
    · rw [create_package_deb root input_dir version revision tempDir
        entries rc false w hsys hdocs, h1]
    · rw [isFile_eq_false_iff]
      intro i hm
      rcases (hmem _ i).mp hm with h | ⟨hq, _⟩ | ⟨hq, _⟩ | ⟨hc, _, _⟩
      · have h2 := hfreshF _ h
        rw [pathLE_append] at h2
        cases h2
      · exact absurd (snoc_inj.mp hq).2
          (ne_debName_short version revision (by decide)).symm
      · exact absurd (snoc_inj.mp hq).2
          (ne_debName_short version revision (by decide)).symm
      · cases hc
  · obtain ⟨W, h1, hmem, _, _, _, _⟩ := create_rpm_spec root tempDir
      input_dir entries rc false version revision w hrc hfreshF hfreshD
      hin hnodup hdocs hdocsT hcol
    refine ⟨W, ?_, ?_⟩
    · rw [create_package_rpm root input_dir version revision tempDir
        entries rc false w hsys hdocs, h1]
    · rw [isFile_eq_false_iff]
      intro i hm
      rcases (hmem _ i).mp hm with h | ⟨hc, _, _⟩
      · have h2 := hfreshF _ h
        rw [pathLE_append] at h2
        cases h2
      · cases hc

/-- Witness for C4: concrete run with the tool reporting success but
producing nothing; `create_package` still returns the path. -/
theorem c4_witness :
    (create_package ["repo"] "tgz" ["in"] "20170814" "1" ["tmp", "t"]
        ["sys.dic", "matrix.bin"] 0 false w0).1
      = .ok (["tmp", "t"] ++ [tgzDirName "20170814" "1" ++ ".tgz"]) := by
  obtain ⟨⟨W, h1, _⟩, _, _⟩ := c4_thm ["repo"] ["tmp", "t"] ["in"]
    ["sys.dic", "matrix.bin"] 0 "20170814" "1" w0 (by decide) (by decide)
    (by decide) (by decide) (by decide) (by decide) (by decide)
    (by decide) (by decide)
  rw [h1]

/-- C6: on a successful `create_tgz_package` run satisfying the
preconditions, the produced archive contains a single top-level directory
named `<name>-<version>-<revision>` (and no other directory), and its
files are exactly the regular files of `input_dir` plus all misc docs,
each a hardlink (same inode) of its source, directly under that root. -/
theorem c6_thm (root tempDir input_dir : Path) (entries : List String)
    (rc : Int) (version revision : String) (w : World)
    (hrc : rc ≤ 0)
    (hfreshF : ∀ pi ∈ w.fs.files, pathLE tempDir pi.1 = false)
    (hfreshD : ∀ d ∈ w.fs.dirs, pathLE tempDir d = false)
    (hin : pathLE tempDir input_dir = false)
    (hnodup : entries.Nodup)
    (hdocs : ∀ d ∈ MECAB_IPADIC_NEOLOGD_MISC_DOCS root,
      w.fs.isFile d = true)
    (hdocsT : ∀ d ∈ MECAB_IPADIC_NEOLOGD_MISC_DOCS root,
      pathLE tempDir d = false)
    (hcol : ∀ d ∈ MECAB_IPADIC_NEOLOGD_MISC_DOCS root,
      basename d ∉ entries) :
    ∃ W pkg, create_tgz_package root tempDir entries rc true input_dir
        version revision w
      = (.ok (tempDir ++ [tgzDirName version revision ++ ".tgz"]), W)
      ∧ W.packages = w.packages ++ [pkg]
      ∧ pkg.out = tempDir ++ [tgzDirName version revision ++ ".tgz"]
      ∧ pkg.dirs = [[tgzDirName version revision]]
      ∧ (∀ (q : Path) (i : Nat), (q, i) ∈ pkg.files ↔
          ((∃ f, f ∈ entries ∧ w.fs.isFile (input_dir ++ [f]) = true
              ∧ q = [tgzDirName version revision, f]
              ∧ w.fs.inode (input_dir ++ [f]) = some i)
           ∨ (∃ d, d ∈ MECAB_IPADIC_NEOLOGD_MISC_DOCS root
              ∧ q = [tgzDirName version revision, basename d]
              ∧ w.fs.inode d = some i))) := by
  obtain ⟨W, h1, _, _, hpkg, _, _⟩ := create_tgz_spec root tempDir input_dir
    entries rc true version revision w hrc hfreshF hfreshD hin hnodup
    hdocs hdocsT hcol
  obtain ⟨pkg, hp1, hp2, hp3, hp4⟩ := hpkg rfl
  exact ⟨W, pkg, h1, hp1, hp2, hp3, hp4⟩

/-- Witness for C6: concrete run; the archive holds exactly the two
dictionary files and the four docs under the single root directory. -/
theorem c6_witness :
    ∃ W pkg, create_tgz_package ["repo"] ["tmp", "t"]
        ["sys.dic", "matrix.bin"] 0 true ["in"] "20170814" "1" w0
      = (.ok (["tmp", "t"] ++ [tgzDirName "20170814" "1" ++ ".tgz"]), W)
      ∧ W.packages = w0.packages ++ [pkg]
      ∧ pkg.dirs = [[tgzDirName "20170814" "1"]]
      ∧ ([tgzDirName "20170814" "1", "sys.dic"], 0) ∈ pkg.files
      ∧ ∀ i : Nat, ([tgzDirName "20170814" "1", "subdir"], i) ∉ pkg.files := by
  obtain ⟨W, pkg, h1, h2, _, h4, h5⟩ := c6_thm ["repo"] ["tmp", "t"] ["in"]
    ["sys.dic", "matrix.bin"] 0 "20170814" "1" w0 (by decide) (by decide)
    (by decide) (by decide) (by decide) (by decide) (by decide) (by decide)
  refine ⟨W, pkg, h1, h2, h4, ?_, ?_⟩
  · exact (h5 _ 0).mpr (Or.inl ⟨"sys.dic", by decide, by decide, rfl,
      by decide⟩)
  · intro i hm
    rcases (h5 _ i).mp hm with ⟨f, hf, _, hq, _⟩ | ⟨d, hd, hq, _⟩
    · have : f = "subdir" := by
        have h6 := congrArg (fun l : Path => l.getLastD "") hq
        simpa [List.getLastD] using h6.symm
      rw [this] at hf
      simp at hf
    · have hb : basename d = "subdir" := by
        have h6 := congrArg (fun l : Path => l.getLastD "") hq
        simpa [List.getLastD] using h6.symm
      have := misc_docs_basenames (["repo"] : Path)
      rcases List.mem_map_of_mem basename hd with hmb
      rw [this] at hmb
      rw [hb] at hmb
      simp at hmb

/-- C7: the staged layouts are exactly the documented target paths: for
deb every regular file of `input_dir` is packaged at
`var/lib/mecab/dic/ipadic-neologd/<file>` and every misc doc at
`usr/share/doc/mecab-ipadic-neologd/<basename>`; for rpm at
`usr/lib64/mecab/dic/ipadic-neologd/<file>` and
`usr/share/doc/<name>-<version>/<basename>`. -/
theorem c7_thm (root tempDir input_dir : Path) (entries : List String)
    (rc : Int) (version revision : String) (w : World)
    (hrc : rc ≤ 0)
    (hfreshF : ∀ pi ∈ w.fs.files, pathLE tempDir pi.1 = false)
    (hfreshD : ∀ d ∈ w.fs.dirs, pathLE tempDir d = false)
    (hin : pathLE tempDir input_dir = false)
    (hnodup : entries.Nodup)
    (hdocs : ∀ d ∈ MECAB_IPADIC_NEOLOGD_MISC_DOCS root,
      w.fs.isFile d = true)
    (hdocsT : ∀ d ∈ MECAB_IPADIC_NEOLOGD_MISC_DOCS root,
      pathLE tempDir d = false)
    (hcol : ∀ d ∈ MECAB_IPADIC_NEOLOGD_MISC_DOCS root,
      basename d ∉ entries) :
    pathOfRel deb_base_lib_dir
      = ["var", "lib", "mecab", "dic", "ipadic-neologd"]
    ∧ pathOfRel deb_base_doc_dir
      = ["usr", "share", "doc", "mecab-ipadic-neologd"]
    ∧ pathOfRel rpm_base_lib_dir
      = ["usr", "lib64", "mecab", "dic", "ipadic-neologd"]
    ∧ (∃ W pkg, create_deb_package root tempDir entries rc true input_dir
        version revision w
      = (.ok (tempDir ++ [debName version revision]), W)
      ∧ W.packages = w.packages ++ [pkg]
      ∧ (∀ (q : Path) (i : Nat), (q, i) ∈ pkg.files ↔
          ((∃ f, f ∈ entries ∧ w.fs.isFile (input_dir ++ [f]) = true
              ∧ q = pathOfRel deb_base_lib_dir ++ [f]
              ∧ w.fs.inode (input_dir ++ [f]) = some i)
           ∨ (∃ d, d ∈ MECAB_IPADIC_NEOLOGD_MISC_DOCS root
              ∧ q = pathOfRel deb_base_doc_dir ++ [basename d]
              ∧ w.fs.inode d = some i))))
    ∧ (∃ W pkg, create_rpm_package root tempDir entries rc true input_dir
        version revision w
      = (.ok (tempDir ++ [rpmName version revision]), W)
      ∧ W.packages = w.packages ++ [pkg]
      ∧ (∀ (q : Path) (i : Nat), (q, i) ∈ pkg.files ↔
          ((∃ f, f ∈ entries ∧ w.fs.isFile (input_dir ++ [f]) = true
              ∧ q = pathOfRel rpm_base_lib_dir ++ [f]
              ∧ w.fs.inode (input_dir ++ [f]) = some i)
           ∨ (∃ d, d ∈ MECAB_IPADIC_NEOLOGD_MISC_DOCS root
              ∧ q = pathOfRel (rpmDocDirRel version) ++ [basename d]
              ∧ w.fs.inode d = some i)))) := by
  refine ⟨by decide, by decide, by decide, ?_, ?_⟩
  · obtain ⟨W, h1, _, _, hpkg, _, _⟩ := create_deb_spec root tempDir
      input_dir entries rc true version revision w hrc hfreshF hfreshD
      hin hnodup hdocs hdocsT hcol
    obtain ⟨pkg, hp1, _, hp3⟩ := hpkg rfl
    exact ⟨W, pkg, h1, hp1, hp3⟩
  · obtain ⟨W, h1, _, _, hpkg, _, _⟩ := create_rpm_spec root tempDir
      input_dir entries rc true version revision w hrc hfreshF hfreshD
      hin hnodup hdocs hdocsT hcol
    obtain ⟨pkg, hp1, _, hp3⟩ := hpkg rfl
    exact ⟨W, pkg, h1, hp1, hp3⟩

/-- Witness for C7: concrete run; the dictionary file is staged at the
documented deb and rpm target paths. -/
theorem c7_witness :
    ∃ W pkg, create_deb_package ["repo"] ["tmp", "t"]
        ["sys.dic", "matrix.bin"] 0 true ["in"] "20170814" "1" w0
      = (.ok (["tmp", "t"] ++ [debName "20170814" "1"]), W)
      ∧ W.packages = w0.packages ++ [pkg]
      ∧ (["var", "lib", "mecab", "dic", "ipadic-neologd", "sys.dic"], 0)
          ∈ pkg.files := by
  obtain ⟨e1, e2, _, ⟨W, pkg, h1, h2, h3⟩, _⟩ := c7_thm ["repo"]
    ["tmp", "t"] ["in"] ["sys.dic", "matrix.bin"] 0 "20170814" "1" w0
    (by decide) (by decide) (by decide) (by decide) (by decide) (by decide)
    (by decide) (by decide)
  refine ⟨W, pkg, h1, h2, ?_⟩
  have := (h3 (pathOfRel deb_base_lib_dir ++ ["sys.dic"]) 0).mpr
    (Or.inl ⟨"sys.dic", by decide, by decide, rfl, by decide⟩)
  rw [e1] at this
  exact this

/-- C8: `shutil.rmtree` removes exactly the staging subtree (first
conjunct: a file survives it iff it is not at or below the removed path),
and after each successful build the produced artifact exists in the final
filesystem while nothing at or below the staging directory remains. -/
theorem c8_thm (root tempDir input_dir : Path) (entries : List String)
    (rc : Int) (version revision : String) (w : World)
    (hrc : rc ≤ 0)
    (hfreshF : ∀ pi ∈ w.fs.files, pathLE tempDir pi.1 = false)
    (hfreshD : ∀ d ∈ w.fs.dirs, pathLE tempDir d = false)
    (hin : pathLE tempDir input_dir = false)
    (hnodup : entries.Nodup)
    (hdocs : ∀ d ∈ MECAB_IPADIC_NEOLOGD_MISC_DOCS root,
      w.fs.isFile d = true)
    (hdocsT : ∀ d ∈ MECAB_IPADIC_NEOLOGD_MISC_DOCS root,
      pathLE tempDir d = false)
    (hcol : ∀ d ∈ MECAB_IPADIC_NEOLOGD_MISC_DOCS root,
      basename d ∉ entries) :
    (∀ (p : Path) (wx : World) (q : Path) (i : Nat),
        (q, i) ∈ (rmtreeW p wx).fs.files
          ↔ ((q, i) ∈ wx.fs.files ∧ pathLE p q = false))
    ∧ (∃ W, create_tgz_package root tempDir entries rc true input_dir
          version revision w
        = (.ok (tempDir ++ [tgzDirName version revision ++ ".tgz"]), W)
        ∧ W.fs.isFile (tempDir ++ [tgzDirName version revision ++ ".tgz"])
            = true
        ∧ (∀ q : Path, pathLE (tempDir ++ [tgzDirName version revision]) q
              = true →
            W.fs.isFile q = false ∧ q ∉ W.fs.dirs))
    ∧ (∃ W, create_deb_package root tempDir entries rc true input_dir
          version revision w
        = (.ok (tempDir ++ [debName version revision]), W)
        ∧ W.fs.isFile (tempDir ++ [debName version revision]) = true
        ∧ (∀ q : Path, pathLE (tempDir ++ ["deb"]) q = true →
            W.fs.isFile q = false ∧ q ∉ W.fs.dirs))
    ∧ (∃ W, create_rpm_package root tempDir entries rc true input_dir
          version revision w
        = (.ok (tempDir ++ [rpmName version revision]), W)
        ∧ W.fs.isFile (tempDir ++ [rpmName version revision]) = true
        ∧ (∀ q : Path, pathLE (tempDir ++ ["rpm"]) q = true →
            W.fs.isFile q = false ∧ q ∉ W.fs.dirs)) := by
  refine ⟨fun p wx => rmtreeW_frame p wx, ?_, ?_, ?_⟩
  · obtain ⟨W, h1, hmem, hdirs, _, _, _⟩ := create_tgz_spec root tempDir
      input_dir entries rc true version revision w hrc hfreshF hfreshD
      hin hnodup hdocs hdocsT hcol
    refine ⟨W, h1, ?_, ?_⟩
    · exact isFile_iff.mpr ⟨w.fs.next, (hmem _ _).mpr
        (Or.inr ⟨rfl, rfl, rfl⟩)⟩
    · intro q hq
      constructor
      · rw [isFile_eq_false_iff]
        intro i hm
        rcases (hmem q i).mp hm with h | ⟨_, rfl, _⟩
        · have h2 := pathLE_trans (pathLE_append tempDir
            [tgzDirName version revision]) hq
          rw [hfreshF _ h] at h2
          cases h2
        · rw [pathLE_append_same, pathLE_singleton, beq_eq_false_iff_ne.mpr
            (string_ne_append_of_len (by decide))] at hq
          cases hq
      · intro hd
        rw [hdirs] at hd
        rcases List.mem_cons.mp hd with rfl | hd2
        · rw [pathLE_eq_false_of_length (by simp)] at hq
          cases hq
        · have h2 := pathLE_trans (pathLE_append tempDir
            [tgzDirName version revision]) hq
          rw [hfreshD _ hd2] at h2
          cases h2
  · obtain ⟨W, h1, hmem, hdirs, _, _, _⟩ := create_deb_spec root tempDir
      input_dir entries rc true version revision w hrc hfreshF hfreshD
      hin hnodup hdocs hdocsT hcol
    refine ⟨W, h1, ?_, ?_⟩
    · exact isFile_iff.mpr ⟨w.fs.next + 2, (hmem _ _).mpr
        (Or.inr (Or.inr (Or.inr ⟨rfl, rfl, rfl⟩)))⟩
    · intro q hq
      constructor
      · rw [isFile_eq_false_iff]
        intro i hm
        rcases (hmem q i).mp hm with h | ⟨rfl, _⟩ | ⟨rfl, _⟩ | ⟨_, rfl, _⟩
        · have h2 := pathLE_trans (pathLE_append tempDir ["deb"]) hq
          rw [hfreshF _ h] at h2
          cases h2
        · rw [pathLE_append_same] at hq
          cases hq
        · rw [pathLE_append_same] at hq
          cases hq
        · rw [pathLE_append_same, pathLE_singleton, beq_eq_false_iff_ne.mpr
            (debName_ne_deb version revision)] at hq
          cases hq
      · intro hd
        rw [hdirs] at hd
        rcases List.mem_cons.mp hd with rfl | hd2
        · rw [pathLE_eq_false_of_length (by simp)] at hq
          cases hq
        · have h2 := pathLE_trans (pathLE_append tempDir ["deb"]) hq
          rw [hfreshD _ hd2] at h2
          cases h2
  · obtain ⟨W, h1, hmem, hdirs, _, _, _⟩ := create_rpm_spec root tempDir
      input_dir entries rc true version revision w hrc hfreshF hfreshD
      hin hnodup hdocs hdocsT hcol
    refine ⟨W, h1, ?_, ?_⟩
    · exact isFile_iff.mpr ⟨w.fs.next, (hmem _ _).mpr
        (Or.inr ⟨rfl, rfl, rfl⟩)⟩
    · intro q hq
      constructor
      · rw [isFile_eq_false_iff]
        intro i hm
        rcases (hmem q i).mp hm with h | ⟨_, rfl, _⟩
        · have h2 := pathLE_trans (pathLE_append tempDir ["rpm"]) hq
          rw [hfreshF _ h] at h2
          cases h2
        · rw [pathLE_append_same, pathLE_singleton, beq_eq_false_iff_ne.mpr
            (rpmName_ne_rpm version revision)] at hq
          cases hq
      · intro hd
        rw [hdirs] at hd
        rcases List.mem_cons.mp hd with rfl | hd2
        · rw [pathLE_eq_false_of_length (by simp)] at hq
          cases hq
        · have h2 := pathLE_trans (pathLE_append tempDir ["rpm"]) hq
          rw [hfreshD _ hd2] at h2
          cases h2

/-- Witness for C8: concrete tgz run; the tarball exists afterwards and
the staging directory and its contents are gone. -/
theorem c8_witness :
    ∃ W, create_tgz_package ["repo"] ["tmp", "t"] ["sys.dic", "matrix.bin"]
        0 true ["in"] "20170814" "1" w0
      = (.ok (["tmp", "t"] ++ [tgzDirName "20170814" "1" ++ ".tgz"]), W)
      ∧ W.fs.isFile (["tmp", "t"] ++ [tgzDirName "20170814" "1" ++ ".tgz"])
          = true
      ∧ W.fs.isFile (["tmp", "t", tgzDirName "20170814" "1"] ++ ["sys.dic"])
          = false := by
  obtain ⟨_, ⟨W, h1, h2, h3⟩, _, _⟩ := c8_thm ["repo"] ["tmp", "t"] ["in"]
    ["sys.dic", "matrix.bin"] 0 "20170814" "1" w0 (by decide) (by decide)
    (by decide) (by decide) (by decide) (by decide) (by decide) (by decide)
  exact ⟨W, h1, h2, (h3 _ (pathLE_append _ _)).1⟩

/-- C10: under the run preconditions no builder modifies anything outside
the fresh temp directory — in particular every entry of `input_dir` is
preserved with its inode; and an `input_dir` listing entry that is not a
regular file is silently skipped: no hardlink of it is ever made and the
builder still succeeds. -/
theorem c10_thm (root tempDir input_dir : Path) (entries : List String)
    (rc : Int) (created : Bool) (version revision : String) (w : World)
    (hrc : rc ≤ 0)
    (hev : w.events = [])
    (hfreshF : ∀ pi ∈ w.fs.files, pathLE tempDir pi.1 = false)
    (hfreshD : ∀ d ∈ w.fs.dirs, pathLE tempDir d = false)
    (hin : pathLE tempDir input_dir = false)
    (hnodup : entries.Nodup)
    (hdocs : ∀ d ∈ MECAB_IPADIC_NEOLOGD_MISC_DOCS root,
      w.fs.isFile d = true)
    (hdocsT : ∀ d ∈ MECAB_IPADIC_NEOLOGD_MISC_DOCS root,
      pathLE tempDir d = false)
    (hcol : ∀ d ∈ MECAB_IPADIC_NEOLOGD_MISC_DOCS root,
      basename d ∉ entries) :
    (∃ W, create_tgz_package root tempDir entries rc created input_dir
        version revision w
      = (.ok (tempDir ++ [tgzDirName version revision ++ ".tgz"]), W)
      ∧ (∀ (q : Path) (i : Nat), pathLE tempDir q = false →
          ((q, i) ∈ W.fs.files ↔ (q, i) ∈ w.fs.files))
      ∧ (∀ q : Path, q ∈ W.fs.dirs ↔ (q = tempDir ∨ q ∈ w.fs.dirs))
      ∧ (∀ f ∈ entries, w.fs.isFile (input_dir ++ [f]) = false →
          ∀ dst, Event.link (input_dir ++ [f]) dst ∉ W.events))
    ∧ (∃ W, create_deb_package root tempDir entries rc created input_dir
        version revision w
      = (.ok (tempDir ++ [debName version revision]), W)
      ∧ (∀ (q : Path) (i : Nat), pathLE tempDir q = false →
          ((q, i) ∈ W.fs.files ↔ (q, i) ∈ w.fs.files))
      ∧ (∀ q : Path, q ∈ W.fs.dirs ↔ (q = tempDir ∨ q ∈ w.fs.dirs))
      ∧ (∀ f ∈ entries, w.fs.isFile (input_dir ++ [f]) = false →
          ∀ dst, Event.link (input_dir ++ [f]) dst ∉ W.events))
    ∧ (∃ W, create_rpm_package root tempDir entries rc created input_dir
        version revision w
      = (.ok (tempDir ++ [rpmName version revision]), W)
      ∧ (∀ (q : Path) (i : Nat), pathLE tempDir q = false →
          ((q, i) ∈ W.fs.files ↔ (q, i) ∈ w.fs.files))
      ∧ (∀ q : Path, q ∈ W.fs.dirs ↔ (q = tempDir ∨ q ∈ w.fs.dirs))
      ∧ (∀ f ∈ entries, w.fs.isFile (input_dir ++ [f]) = false →
          ∀ dst, Event.link (input_dir ++ [f]) dst ∉ W.events)) := by
  have hskip : ∀ (f : String), f ∈ entries →
      w.fs.isFile (input_dir ++ [f]) = false →
      ∀ lnk : List Event,
      (∀ e ∈ lnk, ∃ g, g ∈ entries.filter
          (fun g => w.fs.isFile (input_dir ++ [g]))
        ∧ ∃ dd, e = Event.link (input_dir ++ [g]) dd) →
      ∀ dst, Event.link (input_dir ++ [f]) dst ∉ lnk := by
    intro f hf hnf lnk hlnk dst hmem
    rcases hlnk _ hmem with ⟨g, hg, dd, heq⟩
    have hg2 := List.mem_filter.mp hg
    have h7 : input_dir ++ [g] = input_dir ++ [f] := by
      have h6 := congrArg (fun e => match e with
        | Event.link s _ => s
        | _ => ([] : Path)) heq
      simpa using h6.symm
    have hgf : g = f := (snoc_inj.mp h7).2
    rw [hgf, hnf] at hg2
    cases hg2.2
  refine ⟨?_, ?_, ?_⟩
  · obtain ⟨W, h1, hmem, hdirs, _, _, hevents⟩ := create_tgz_spec root
      tempDir input_dir entries rc created version revision w hrc hfreshF
      hfreshD hin hnodup hdocs hdocsT hcol
    refine ⟨W, h1, ?_, ?_, ?_⟩
    · intro q i hq
      rw [hmem q i]
      constructor
      · rintro (h | ⟨_, rfl, _⟩)
        · exact h
        · rw [pathLE_append] at hq
          cases hq
      · exact Or.inl
    · intro q
      rw [hdirs, List.mem_cons]
    · intro f hf hnf dst hmem
      rw [hevents, hev, List.nil_append] at hmem
      rcases List.mem_append.mp hmem with h | h
      · rcases List.mem_append.mp h with h2 | h2
        · rcases List.mem_append.mp h2 with h3 | h3
          · simp at h3
          · exact hskip f hf hnf _ (fun e he => by
              rcases List.mem_map.mp he with ⟨g, hg, heq⟩
              exact ⟨g, hg, _, heq.symm⟩) dst h3
        · rcases List.mem_map.mp h2 with ⟨d, hd, heq⟩
          have hsd : d = input_dir ++ [f] := by
            have := congrArg (fun e => match e with
              | Event.link s _ => s
              | _ => []) heq
            simpa using this
          have := hdocs d hd
          rw [hsd, hnf] at this
          cases this
      · simp at h
  · obtain ⟨W, h1, hmem, hdirs, _, _, hevents⟩ := create_deb_spec root
      tempDir input_dir entries rc created version revision w hrc hfreshF
      hfreshD hin hnodup hdocs hdocsT hcol
    refine ⟨W, h1, ?_, ?_, ?_⟩
    · intro q i hq
      rw [hmem q i]
      constructor
      · rintro (h | ⟨rfl, _⟩ | ⟨rfl, _⟩ | ⟨_, rfl, _⟩)
        · exact h
        · rw [pathLE_append] at hq
          cases hq
        · rw [pathLE_append] at hq
          cases hq
        · rw [pathLE_append] at hq
          cases hq
      · exact Or.inl
    · intro q
      rw [hdirs, List.mem_cons]
    · intro f hf hnf dst hmem
      rw [hevents, hev, List.nil_append] at hmem
      rcases List.mem_append.mp hmem with h | h
      · rcases List.mem_append.mp h with h2 | h2
        · rcases List.mem_append.mp h2 with h3 | h3
          · simp at h3
          · exact hskip f hf hnf _ (fun e he => by
              rcases List.mem_map.mp he with ⟨g, hg, heq⟩
              exact ⟨g, hg, _, heq.symm⟩) dst h3
        · rcases List.mem_map.mp h2 with ⟨d, hd, heq⟩
          have hsd : d = input_dir ++ [f] := by
            have := congrArg (fun e => match e with
              | Event.link s _ => s
              | _ => []) heq
            simpa using this
          have := hdocs d hd
          rw [hsd, hnf] at this
          cases this
      · simp at h
  · obtain ⟨W, h1, hmem, hdirs, _, _, hevents⟩ := create_rpm_spec root
      tempDir input_dir entries rc created version revision w hrc hfreshF
      hfreshD hin hnodup hdocs hdocsT hcol
    refine ⟨W, h1, ?_, ?_, ?_⟩
    · intro q i hq
      rw [hmem q i]
      constructor
      · rintro (h | ⟨_, rfl, _⟩)
        · exact h
        · rw [pathLE_append] at hq
          cases hq
      · exact Or.inl
    · intro q
      rw [hdirs, List.mem_cons]
    · intro f hf hnf dst hmem
      rw [hevents, hev, List.nil_append] at hmem
      rcases List.mem_append.mp hmem with h | h
      · rcases List.mem_append.mp h with h2 | h2
        · rcases List.mem_append.mp h2 with h3 | h3
          · simp at h3
          · exact hskip f hf hnf _ (fun e he => by
              rcases List.mem_map.mp he with ⟨g, hg, heq⟩
              exact ⟨g, hg, _, heq.symm⟩) dst h3
        · rcases List.mem_map.mp h2 with ⟨d, hd, heq⟩
          have hsd : d = input_dir ++ [f] := by
            have := congrArg (fun e => match e with
              | Event.link s _ => s
              | _ => []) heq
            simpa using this
          have := hdocs d hd
          rw [hsd, hnf] at this
          cases this
      · simp at h

/-- Witness for C10: a concrete run whose listing contains the
non-regular entry `subdir`; the input dir is untouched and `subdir` is
never hardlinked. -/
theorem c10_witness :
    ∃ W, create_tgz_package ["repo"] ["tmp", "t"]
        ["sys.dic", "matrix.bin", "subdir"] 0 true ["in"] "20170814" "1" w0
      = (.ok (["tmp", "t"] ++ [tgzDirName "20170814" "1" ++ ".tgz"]), W)
      ∧ ((["in", "sys.dic"], 0) ∈ W.fs.files ↔ (["in", "sys.dic"], 0)
          ∈ w0.fs.files)
      ∧ ∀ dst, Event.link (["in"] ++ ["subdir"]) dst ∉ W.events := by
  obtain ⟨⟨W, h1, h2, _, h4⟩, _, _⟩ := c10_thm ["repo"] ["tmp", "t"] ["in"]
    ["sys.dic", "matrix.bin", "subdir"] 0 true "20170814" "1" w0
    (by decide) rfl (by decide) (by decide) (by decide) (by decide)
    (by decide) (by decide) (by decide)
  exact ⟨W, h1, h2 _ 0 (by decide), h4 "subdir" (by decide) (by decide)⟩

end MecabPkg
